import Mathlib

/-!
Verification of the `expr_parser` repository: a Pratt parser and interpreter
for simple arithmetic expressions (`lexer.py` and `parser.py`).

The development shallowly embeds the two source files:

* the regex-driven lexer (`lexer.py`) becomes a character-level scanner whose
  branches follow the alternation `ws | name | infix-char | punct | number`
  of the compiled token pattern, including the backtracking behaviour of the
  number pattern `(:?\d*\.)?\d+` (note the literal `:?` written in the
  source);
* the parser engine (`parser.py`) becomes a fueled state-passing interpreter
  over a parser state holding the remaining source characters (the token
  stream is a lazy generator in the source, so lexing is interleaved with
  parsing) and the current symbol instance;
* the dynamically created symbol classes become a symbol table mapping keys
  to symbol definitions (kind + binding power), and the `nud`/`led` methods
  of each registered class become the corresponding branches of the
  interpreter;
* evaluation (`eval` methods) becomes a recursive function over the AST.
  Numbers are modelled as `ℚ`; Python evaluates with IEEE doubles, and on
  every concrete input appearing in this development the double computation
  is exact, so the rational model agrees with the code there.  Operations
  whose float result is not exactly representable (irrational square roots,
  logarithms, fractional powers) are flagged with a dedicated `notExact`
  marker rather than given an approximate value.

Character classes are modelled at ASCII scope (all inputs considered in this
development are ASCII; the source compiles its pattern with `re.UNICODE`).
-/

namespace ExprParser

/-! ## Lexer (`lexer.py`) -/

/-- `\s` at ASCII scope, as used by the `ws` token pattern. -/
def isSpaceC (c : Char) : Bool :=
  c = ' ' || c = '\t' || c = '\n' || c = '\r' || c = '\x0b' || c = '\x0c'

/-- First character of the `name` pattern `[a-z][\w_]*`; the pattern is
compiled with `re.IGNORECASE`, so uppercase letters also match. -/
def isLetterC (c : Char) : Bool :=
  ('a' ≤ c && c ≤ 'z') || ('A' ≤ c && c ≤ 'Z')

/-- `\w` (and the redundant `_`) of the `name` pattern, at ASCII scope. -/
def isWordC (c : Char) : Bool :=
  isLetterC c || c.isDigit || c = '_'

/-- The `infix` token pattern `[+\-*/\^]`. -/
def isInfixC (c : Char) : Bool :=
  c = '+' || c = '-' || c = '*' || c = '/' || c = '^'

/-- The `punct` token pattern `[\(\),]`. -/
def isPunctC (c : Char) : Bool :=
  c = '(' || c = ')' || c = ','

/-- The group `(:?\d*\.)` of the number pattern followed by the mandatory
`\d+`, matched greedily: the digit run, then the dot, then at least one
digit.  `pre` holds the optional literal colon already consumed.  Returns
the matched characters and the remaining input. -/
def numGroup (pre rest : List Char) : Option (List Char × List Char) :=
  let ds := rest.takeWhile Char.isDigit
  let tl := rest.dropWhile Char.isDigit
  if tl.head? = some '.' then
    let r2 := tl.tail
    let ds2 := r2.takeWhile Char.isDigit
    if ds2.isEmpty then none
    else some (pre ++ ds ++ '.' :: ds2, r2.dropWhile Char.isDigit)
  else none

/-- The bare `\d+` alternative, tried after the optional group fails. -/
def numBare (cs : List Char) : Option (List Char × List Char) :=
  let ds := cs.takeWhile Char.isDigit
  if ds.isEmpty then none else some (ds, cs.dropWhile Char.isDigit)

/-- The `number` token pattern `(:?\d*\.)?\d+` as the source writes it: an
optional group of an optional literal colon, digits, and a dot, followed
by one or more digits.  Matching follows Python's backtracking order: the
optional group is tried first (greedily), and if the mandatory digits
after it fail the whole group is dropped and a bare `\d+` is tried.  At a
leading colon the group-less alternatives can never succeed, so failure of
the colon group is final. -/
def matchNumber (cs : List Char) : Option (List Char × List Char) :=
  match cs with
  | [] => none
  | c :: rest =>
    if c = ':' then numGroup [':'] rest
    else
      match numGroup [] (c :: rest) with
      | some r => some r
      | none => numBare (c :: rest)

/-- A token produced by the lexer: type tag (`"<name>"`, `"<infix>"`,
`"<punct>"`, `"<number>"`), matched text, and start offset. -/
structure Token where
  token_type : String
  value : String
  pos : Nat
deriving DecidableEq, Repr

/-- A lexical error: `LexerException` with the offending offset and char. -/
structure LexErr where
  pos : Nat
  char : Char
deriving DecidableEq, Repr

/-- One step of the lazy token generator `lex`: skip whitespace, then match
one token at the current position, following the alternation order of the
compiled pattern (the alternatives have disjoint first-character classes).
Returns `none` at end of input (`StopIteration`), or the token together with
the remaining characters and the next offset. -/
def lexNext (cs : List Char) (i : Nat) :
    Except LexErr (Option (Token × List Char × Nat)) :=
  let sp := cs.takeWhile isSpaceC
  let rest := cs.dropWhile isSpaceC
  let j := i + sp.length
  match rest with
  | [] => .ok none
  | c :: cs' =>
    if isLetterC c then
      let w := cs'.takeWhile isWordC
      .ok (some (⟨"<name>", String.mk (c :: w), j⟩,
        cs'.dropWhile isWordC, j + 1 + w.length))
    else if isInfixC c then
      .ok (some (⟨"<infix>", String.mk [c], j⟩, cs', j + 1))
    else if isPunctC c then
      .ok (some (⟨"<punct>", String.mk [c], j⟩, cs', j + 1))
    else
      match matchNumber (c :: cs') with
      | some (tokChars, rest') =>
        .ok (some (⟨"<number>", String.mk tokChars, j⟩, rest', j + tokChars.length))
      | none => .error ⟨j, c⟩

/-- The whole token sequence of a source string (the generator run to
completion), with fuel; `lexNext` consumes at least one character per token,
so `cs.length + 1` fuel always suffices. -/
def lexAllFrom : Nat → List Char → Nat → Except LexErr (List Token)
  | 0, _, _ => .ok []
  | fuel + 1, cs, i =>
    match lexNext cs i with
    | .error e => .error e
    | .ok none => .ok []
    | .ok (some (t, rest, i')) =>
      match lexAllFrom fuel rest i' with
      | .error e => .error e
      | .ok ts => .ok (t :: ts)

/-- `list(lex(source))`: every token of the source string, or the first
lexical error. -/
def lexAll (source : String) : Except LexErr (List Token) :=
  lexAllFrom (source.data.length + 1) source.data 0

/-! ## Grammar registry (`parser.py`: `Parser.define` and the grammar
definition at module level)

The source creates one dynamically generated class per registered symbol.
The embedding defunctionalizes that class hierarchy: a symbol definition
carries its identifier `sid`, its binding power `lbp`, and a `kind` tag
selecting which of the registered classes supplies its `nud`/`led`/`eval`
behaviour. -/

/-- Which registered symbol class a definition refers to. -/
inductive SymKind where
  /-- The plain `Symbol` registered for `"<end>"`: `nud`/`led` raise. -/
  | endSym
  /-- The plain `Symbol` registered for `","` and `")"`. -/
  | plainSym
  /-- `Infix` (left-associative) or, with `true`, `InfixR`. -/
  | infixSym (rightAssoc : Bool)
  /-- `Number`, the `Literal` registered for `"<number>"`. -/
  | numberSym
  /-- `Reference`, the `Literal` registered for `"<name>"`. -/
  | nameSym
  /-- `Minus`, registered for `"-"`: `Prefix`'s `nud` and `Infix`'s `led`. -/
  | minusSym
  /-- `FunctionCall`, registered for `"("`: grouping `nud`, call `led`. -/
  | callSym
deriving DecidableEq, Repr

/-- A symbol definition: the class generated by `Parser.define(sid, bp, ...)`,
with `id = sid` and `lbp = bp` as class attributes. -/
structure SymDef where
  kind : SymKind
  lbp : Nat
  sid : String
deriving DecidableEq, Repr

/-- Dictionary lookup in an association list (Python `dict` access). -/
def assocGet {α : Type} (k : String) : List (String × α) → Option α
  | [] => none
  | (k', v) :: rest => if k = k' then some v else assocGet k rest

/-- The symbol table of the module-level `expr = Parser()` instance, in
registration order: `"<end>"` from the constructor, then the grammar
definition block. -/
def exprTable : List (String × SymDef) :=
  [("<end>", ⟨.endSym, 0, "<end>"⟩),
   ("+", ⟨.infixSym false, 50, "+"⟩),
   ("*", ⟨.infixSym false, 60, "*"⟩),
   ("/", ⟨.infixSym false, 60, "/"⟩),
   ("^", ⟨.infixSym true, 70, "^"⟩),
   ("<number>", ⟨.numberSym, 0, "<number>"⟩),
   ("<name>", ⟨.nameSym, 0, "<name>"⟩),
   ("-", ⟨.minusSym, 50, "-"⟩),
   (",", ⟨.plainSym, 0, ","⟩),
   (")", ⟨.plainSym, 0, ")"⟩),
   ("(", ⟨.callSym, 90, "("⟩)]

/-- The symbol-table lookup inside `Parser.advance`: first by the token's
text (`tok.value in symbol_table`), then by its type tag
(`tok.token_type in symbol_table`); `none` models the `Undefined token`
error. -/
def resolveSym (tbl : List (String × SymDef)) (tk : Token) : Option SymDef :=
  match assocGet tk.value tbl with
  | some d => some d
  | none => assocGet tk.token_type tbl

/-! ## Parser engine state and `advance` -/

/-- A symbol instance `sym(self, tok.value)`: the current-token object held
in `Parser.token`.  `value` is `tok.value` (or the symbol's `id` when
constructed with `value=None`, as for `"<end>"`), `sid` is the class's `id`
attribute. -/
structure SymInst where
  kind : SymKind
  lbp : Nat
  value : String
  sid : String
deriving DecidableEq, Repr

/-- Instantiating a resolved symbol class on a token's text. -/
def mkInst (d : SymDef) (v : String) : SymInst :=
  ⟨d.kind, d.lbp, v, d.sid⟩

/-- The synthetic end-of-input instance `symbol_table["<end>"](self)`:
constructed with `value=None`, so its `value` falls back to its `id`. -/
def endInst : SymInst := ⟨.endSym, 0, "<end>", "<end>"⟩

/-- The instance the `")"` symbol class produces on a `")"` token. -/
def rparenInst : SymInst := ⟨.plainSym, 0, ")", ")"⟩

/-- The mutable parsing state of the engine: the unconsumed suffix of the
source (the lazy token generator's remaining input), the generator's current
offset, and `Parser.token` (`none` models Python `None`). -/
structure PState where
  src : List Char
  pos : Nat
  tok : Option SymInst
deriving DecidableEq, Repr

/-- Parser-side errors (every `ParserError` raise site, plus propagated
lexer exceptions).  `outOfFuel` is an artifact of the fueled embedding and
is proved unreachable for the fuel `parse` supplies. -/
inductive PErr where
  /-- `Undefined token %s`: no symbol-table entry by text or type. -/
  | undefinedToken (tk : Token)
  /-- `Expected `%s'; got `%s' instead` from `advance(value)`. -/
  | expected (wanted got : String)
  /-- `Symbol action undefined for `%s'`: `Symbol.nud`. -/
  | nudUndefined (value : String)
  /-- `Infix action undefined for `%s'`: `Symbol.led`. -/
  | ledUndefined (value : String)
  /-- A `LexerException` raised while the generator produces a token. -/
  | lexError (e : LexErr)
  /-- Reading `self.token` while it is `None` (an `AttributeError` in
  Python; unreachable from `parse`, which primes the token first). -/
  | noCurrentToken
  /-- Fuel exhaustion of the embedding (never the code's behaviour). -/
  | outOfFuel
deriving DecidableEq, Repr

/-- The body of `Parser.advance` after the expectation check: pull the next
token from the generator (running the lexer one step), resolve it in the
symbol table and instantiate it, or install the `"<end>"` instance on
`StopIteration`. -/
def advanceNext (tbl : List (String × SymDef)) (st : PState) :
    Except PErr PState :=
  match lexNext st.src st.pos with
  | .error e => .error (.lexError e)
  | .ok none => .ok { src := [], pos := st.pos, tok := some endInst }
  | .ok (some (tk, rest, p')) =>
    match resolveSym tbl tk with
    | none => .error (.undefinedToken tk)
    | some d => .ok { src := rest, pos := p', tok := some (mkInst d tk.value) }

/-- `Parser.advance(value=None)`: optionally check the current token against
the expected text (`value not in (tok.value, tok.id)` raises), then install
the next token. -/
def advance (tbl : List (String × SymDef)) (expected : Option String)
    (st : PState) : Except PErr PState :=
  match expected with
  | none => advanceNext tbl st
  | some v =>
    match st.tok with
    | none => .error .noCurrentToken
    | some t =>
      if v ≠ t.value ∧ v ≠ t.sid then .error (.expected v t.value)
      else advanceNext tbl st

/-! ## AST nodes

Parsing returns symbol instances whose `first`/`second` slots have been
filled in; only the five shapes below are ever produced (every other class's
`nud`/`led` raises before returning a node). -/

/-- The abstract syntax trees the parser can return. -/
inductive Node where
  /-- A `Number` instance: `value` is the token text. -/
  | number (value : String)
  /-- A `Reference` instance: `value` is the name. -/
  | ref (name : String)
  /-- An `Infix`/`InfixR`/`Minus` instance with both slots set. -/
  | binop (op : String) (first second : Node)
  /-- A `Minus` instance produced by `nud`: `second` remains `None`. -/
  | neg (first : Node)
  /-- A `FunctionCall` instance produced by `led`: `first` is the callee
  node, `second` the argument list. -/
  | call (first : Node) (args : List Node)
deriving Repr

/-- The `value` attribute of a finished node (used by `FunctionCall.eval`
to look up the callee: `OP_REGISTRY[self.first.value]`).  A `FunctionCall`
instance itself was constructed on the `"("` token. -/
def nodeValue : Node → String
  | .number v => v
  | .ref n => n
  | .binop op _ _ => op
  | .neg _ => "-"
  | .call _ _ => "("

/-! ## The Pratt loop (`Parser.expression` and the `nud`/`led` methods)

The five mutually recursive functions below are the engine's `expression`
method, its `while` loop, the `nud` and `led` dispatch (the bodies of the
registered classes' methods, selected by symbol kind exactly as Python's
method resolution selects them), and the argument loop of
`FunctionCall.led`.  Each takes fuel; every recursive call decreases it, and
the fuel supplied by `parse` is proved sufficient below. -/

mutual

/-- `Parser.expression(rbp)`: read the anchor token, advance, run its
prefix action, then the binding-power loop. -/
def expression : Nat → Nat → PState → Except PErr (Node × PState)
  | 0, _, _ => .error .outOfFuel
  | fuel + 1, rbp, st =>
    match st.tok with
    | none => .error .noCurrentToken
    | some anchor => do
      let st1 ← advance exprTable none st
      let (left, st2) ← nudRun fuel anchor st1
      exprLoop fuel rbp left st2

/-- `tok.nud()`, dispatched on the symbol's class. -/
def nudRun : Nat → SymInst → PState → Except PErr (Node × PState)
  | 0, _, _ => .error .outOfFuel
  | fuel + 1, t, st =>
    match t.kind with
    | .numberSym => .ok (.number t.value, st)   -- Literal.nud: return self
    | .nameSym => .ok (.ref t.value, st)        -- Literal.nud: return self
    | .minusSym => do                           -- Prefix.nud: expression(80)
      let (operand, st') ← expression fuel 80 st
      .ok (.neg operand, st')
    | .callSym => do                            -- FunctionCall.nud: grouping
      let (inner, st') ← expression fuel 0 st
      let st'' ← advance exprTable (some ")") st'
      .ok (inner, st'')
    | _ => .error (.nudUndefined t.value)       -- Symbol.nud raises

/-- The `while rbp < self.token.lbp` loop of `Parser.expression`. -/
def exprLoop : Nat → Nat → Node → PState → Except PErr (Node × PState)
  | 0, _, _, _ => .error .outOfFuel
  | fuel + 1, rbp, left, st =>
    match st.tok with
    | none => .error .noCurrentToken
    | some t =>
      if rbp < t.lbp then do
        let st1 ← advance exprTable none st
        let (left', st2) ← ledRun fuel t left st1
        exprLoop fuel rbp left' st2
      else .ok (left, st)

/-- `tok.led(left)`, dispatched on the symbol's class. -/
def ledRun : Nat → SymInst → Node → PState → Except PErr (Node × PState)
  | 0, _, _, _ => .error .outOfFuel
  | fuel + 1, t, left, st =>
    match t.kind with
    | .infixSym ra => do
      -- Infix.led: rbp = self.lbp - int(self.rightAssoc)
      let (right, st') ← expression fuel (t.lbp - (if ra then 1 else 0)) st
      .ok (.binop t.value left right, st')
    | .minusSym => do                           -- Minus inherits Infix.led
      let (right, st') ← expression fuel t.lbp st
      .ok (.binop t.value left right, st')
    | .callSym => do                            -- FunctionCall.led
      let (args, st') ← argsLoop fuel [] st
      let st'' ← advance exprTable (some ")") st'
      .ok (.call left args, st'')
    | _ => .error (.ledUndefined t.value)       -- Symbol.led raises

/-- The argument loop of `FunctionCall.led`:
`while p.token.value != ")": args.append(p.expression(0)); ...`. -/
def argsLoop : Nat → List Node → PState → Except PErr (List Node × PState)
  | 0, _, _ => .error .outOfFuel
  | fuel + 1, args, st =>
    match st.tok with
    | none => .error .noCurrentToken
    | some t =>
      if t.value ≠ ")" then do
        let (e, st1) ← expression fuel 0 st
        match st1.tok with
        | none => .error .noCurrentToken
        | some t1 =>
          if t1.value ≠ "," then .ok (args ++ [e], st1)  -- break
          else do
            let st2 ← advance exprTable (some ",") st1
            argsLoop fuel (args ++ [e]) st2
      else .ok (args, st)

end

/-- The fuel `parse` supplies; proved sufficient in the termination claim. -/
def fuelFor (source : String) : Nat := 2 * source.data.length + 2

/-- `Parser.parse(source)` up to the final state: install the fresh token
generator, prime the current token with one `advance()`, then run
`expression(0)`. -/
def parseFull (source : String) : Except PErr (Node × PState) := do
  let st1 ← advance exprTable none ⟨source.data, 0, none⟩
  expression (fuelFor source) 0 st1

/-- `Parser.parse(source)`: the returned root node. -/
def parse (source : String) : Except PErr Node :=
  (parseFull source).map Prod.fst

/-! ## The engine object and its reset guarantee (`Parser.parse`) -/

/-- The per-instance mutable fields of a `Parser` object (the symbol table
is fixed at module level and never mutated by `parse`). -/
structure Engine where
  src : List Char
  pos : Nat
  tok : Option SymInst
deriving DecidableEq, Repr

/-- A freshly constructed engine: `self.tokens = iter(()); self.token =
None` — also exactly what the `finally` block of `parse` restores. -/
def initEngine : Engine := ⟨[], 0, none⟩

/-- `Parser.parse` on an engine instance.  The `try` body replaces the
token stream with the new source (leaving `self.token` as it was until the
first `advance()` overwrites it, which never reads it), and the `finally`
block resets the stream and token state on success and failure alike. -/
def Engine.parse (e : Engine) (source : String) :
    Except PErr Node × Engine :=
  let e1 : Engine := { e with src := source.data, pos := 0 }
  let result : Except PErr Node := do
    let st1 ← advance exprTable none ⟨e1.src, e1.pos, e1.tok⟩
    let (n, _) ← expression (fuelFor source) 0 st1
    pure n
  (result, initEngine)

/-! ## Evaluation (the `eval` methods and `OP_REGISTRY`)

Values are modelled as `ℚ`.  Python computes with IEEE doubles; on every
concrete input appearing in this development the double computation is
exact, so the models below agree with the code there.  Where the double
result of an operation is not exactly representable (irrational roots,
logarithms, fractional powers) the model returns the `notExact` marker
instead of an approximation; no claim depends on such a value. -/

/-- Evaluation-time failures.  The spec's taxonomy names are used for the
corresponding Python exceptions: `unknownFunction` is the `ParserError`
`Invalid function '%s'` (a caught `KeyError`), `unknownOperator` an uncaught
`KeyError` from `OP_REGISTRY` in `Infix.eval`, `arityMismatch` the
`TypeError` from applying a registry function to the wrong number of
arguments, `invalidNumber` the `ValueError` from `float()`, `valueError` a
math domain error, `zeroDivision` a `ZeroDivisionError`. -/
inductive EvalErr where
  | missingReference (name : String)   -- ParserError "Missing reference '%s'"
  | unknownFunction (name : String)
  | unknownOperator (name : String)
  | arityMismatch (name : String)
  | invalidNumber (text : String)
  | valueError
  | zeroDivision
  /-- Marker of the rational model: the double result exists in the code
  but is not exactly representable. -/
  | notExact
deriving DecidableEq, Repr

/-- Python `float()` on the literal forms the lexer can emit: an optional
sign, digits with an optional dot, and an optional exponent (no `inf`/`nan`
or surrounding whitespace, which no lexer token contains).  `none` models
the `ValueError` on malformed text, e.g. on a leading colon. -/
def pyfloat (s : String) : Option ℚ :=
  let parseSigned : List Char → Option ℚ := fun cs =>
    let core : List Char → Option ℚ := fun cs => do
      let ds := cs.takeWhile Char.isDigit
      let rest := cs.dropWhile Char.isDigit
      let ipart : ℕ := ds.foldl (fun a c => 10 * a + (c.toNat - '0'.toNat)) 0
      let (mant, scale, rest2) ←
        match rest with
        | '.' :: r =>
          let fs := r.takeWhile Char.isDigit
          if ds.isEmpty ∧ fs.isEmpty then none
          else some (fs.foldl (fun a c => 10 * a + (c.toNat - '0'.toNat)) ipart,
            fs.length, r.dropWhile Char.isDigit)
        | _ => if ds.isEmpty then none else some (ipart, 0, rest)
      let base : ℚ := (mant : ℚ) / ((10 : ℚ) ^ scale)
      match rest2 with
      | [] => some base
      | e :: r2 =>
        if e = 'e' ∨ e = 'E' then
          let (esign, r3) : ℤ × List Char :=
            match r2 with
            | '+' :: r3 => (1, r3)
            | '-' :: r3 => (-1, r3)
            | _ => (1, r2)
          let eds := r3.takeWhile Char.isDigit
          if eds.isEmpty ∨ ¬(r3.dropWhile Char.isDigit).isEmpty then none
          else
            let ex : ℕ := eds.foldl (fun a c => 10 * a + (c.toNat - '0'.toNat)) 0
            if esign = 1 then some (base * (10 : ℚ) ^ ex)
            else some (base / (10 : ℚ) ^ ex)
        else none
    match cs with
    | '+' :: r => core r
    | '-' :: r => (core r).map Neg.neg
    | _ => core cs
  parseSigned s.data

/-- Integer power on `ℚ` (`x ** y` for an integral exponent). -/
def qzpow (x : ℚ) (n : ℤ) : ℚ :=
  if 0 ≤ n then x ^ n.toNat else (x ^ (-n).toNat)⁻¹

/-- `operator.add` on floats. -/
def pyadd (x y : ℚ) : Except EvalErr ℚ := .ok (x + y)

/-- `operator.sub` on floats. -/
def pysub (x y : ℚ) : Except EvalErr ℚ := .ok (x - y)

/-- `operator.mul` on floats. -/
def pymul (x y : ℚ) : Except EvalErr ℚ := .ok (x * y)

/-- `operator.div` on floats (Python 2 true division of doubles). -/
def pydiv (x y : ℚ) : Except EvalErr ℚ :=
  if y = 0 then .error .zeroDivision else .ok (x / y)

/-- `operator.pow` on floats (Python 2 `**`): exact for integral exponents
(with `ZeroDivisionError` on `0 ** negative`); a fractional exponent on a
negative base raises `ValueError`, and otherwise yields a double that is
exactly representable only in trivial cases. -/
def pypow (x y : ℚ) : Except EvalErr ℚ :=
  if y.den = 1 then
    if x = 0 ∧ y.num < 0 then .error .zeroDivision
    else .ok (qzpow x y.num)
  else
    if x < 0 then .error .valueError
    else if x = 0 then (if y.num < 0 then .error .zeroDivision else .ok 0)
    else if x = 1 then .ok 1
    else .error .notExact

/-- `math.sqrt`: domain error below zero, exact on rational squares. -/
def pysqrt (x : ℚ) : Except EvalErr ℚ :=
  if x < 0 then .error .valueError
  else
    let n := x.num.toNat
    let sn := Nat.sqrt n
    let sd := Nat.sqrt x.den
    if sn * sn = n ∧ sd * sd = x.den then .ok ((sn : ℚ) / (sd : ℚ))
    else .error .notExact

/-- `math.log(x)`: domain error at or below zero, exact only at 1. -/
def pylog1 (x : ℚ) : Except EvalErr ℚ :=
  if x ≤ 0 then .error .valueError
  else if x = 1 then .ok 0
  else .error .notExact

/-- `math.log(x, base)`: `log(x)/log(base)` on doubles. -/
def pylogBase (x b : ℚ) : Except EvalErr ℚ :=
  if x ≤ 0 ∨ b ≤ 0 then .error .valueError
  else if b = 1 then .error .zeroDivision
  else if x = 1 then .ok 0
  else if x = b then .ok 1
  else .error .notExact

/-- The `lambda x: math.log(x, 2)` registered for `log2`. -/
def pylog2 (x : ℚ) : Except EvalErr ℚ := pylogBase x 2

/-- A value of `OP_REGISTRY`: a Python callable of fixed arity two
(`operator.add`, ..., `operator.pow`), fixed arity one (`math.sqrt`, the
`log2` lambda), or `math.log`, which accepts one or two arguments. -/
inductive OpEntry where
  | binF (f : ℚ → ℚ → Except EvalErr ℚ)
  | unF (f : ℚ → Except EvalErr ℚ)
  | logF

/-- Applying a registry callable to an argument list; a wrong argument
count is Python's `TypeError` (`arityMismatch`). -/
def OpEntry.callWith (fname : String) : OpEntry → List ℚ → Except EvalErr ℚ
  | .binF f, [a, b] => f a b
  | .unF f, [a] => f a
  | .logF, [a] => pylog1 a
  | .logF, [a, b] => pylogBase a b
  | _, _ => .error (.arityMismatch fname)

/-- Whether a registry callable accepts `n` arguments. -/
def OpEntry.arityOk : OpEntry → Nat → Bool
  | .binF _, n => n = 2
  | .unF _, n => n = 1
  | .logF, n => n = 1 || n = 2

/-- `OP_REGISTRY`. -/
def OP_REGISTRY : List (String × OpEntry) :=
  [("+", .binF pyadd),
   ("-", .binF pysub),
   ("*", .binF pymul),
   ("/", .binF pydiv),
   ("^", .binF pypow),
   ("sqrt", .unF pysqrt),
   ("log", .logF),
   ("log2", .unF pylog2)]

/-- The evaluation context (`doc`): a name-to-value mapping. -/
def Doc : Type := List (String × ℚ)

mutual

/-- `node.eval(doc)`, dispatched over the node shapes the parser produces.

* `number`: `float(self.value)`, whose `ValueError` on malformed text is
  uncaught (`invalidNumber`);
* `ref`: `doc[self.value]`, `KeyError` caught and re-raised as the
  `ParserError` `Missing reference` (`missingReference`);
* `binop`: `Infix.eval` — registry lookup of the operator (an uncaught
  `KeyError` if absent), then both operands left to right;
* `neg`: `Minus.eval` with `second is None` — `operator.neg`, no registry
  lookup;
* `call`: `FunctionCall.eval` — the callee expression
  `OP_REGISTRY[self.first.value]` is evaluated before the argument
  generator is consumed, and the surrounding `except KeyError` converts a
  `KeyError` raised either by that lookup or while evaluating the
  arguments into the `ParserError` `Invalid function` (`unknownFunction`). -/
def evalNode : Node → Doc → Except EvalErr ℚ
  | .number v, _ =>
    match pyfloat v with
    | some q => .ok q
    | none => .error (.invalidNumber v)
  | .ref n, doc =>
    match assocGet n doc with
    | some q => .ok q
    | none => .error (.missingReference n)
  | .neg e, doc => do
    let v ← evalNode e doc
    .ok (-v)
  | .binop op a b, doc =>
    match assocGet op OP_REGISTRY with
    | none => .error (.unknownOperator op)
    | some entry => do
      let x ← evalNode a doc
      let y ← evalNode b doc
      entry.callWith op [x, y]
  | .call f args, doc =>
    match assocGet (nodeValue f) OP_REGISTRY with
    | none => .error (.unknownFunction (nodeValue f))
    | some entry =>
      match evalArgs args doc with
      | .error (.unknownOperator nm) => .error (.unknownFunction nm)
      | .error e => .error e
      | .ok vs => entry.callWith (nodeValue f) vs

/-- The argument generator of `FunctionCall.eval`, consumed left to right. -/
def evalArgs : List Node → Doc → Except EvalErr (List ℚ)
  | [], _ => .ok []
  | a :: rest, doc => do
    let v ← evalNode a doc
    let vs ← evalArgs rest doc
    .ok (v :: vs)

end

/-- A failure of the whole pipeline: from parsing or from evaluation. -/
inductive RunErr where
  | parseE (e : PErr)
  | evalE (e : EvalErr)
deriving DecidableEq, Repr

/-- Tagging an evaluation outcome as a pipeline outcome. -/
def liftEval (r : Except EvalErr ℚ) : Except RunErr ℚ :=
  match r with
  | .error e => .error (.evalE e)
  | .ok v => .ok v

/-- `expr.parse(source).eval(doc)`: the full pipeline. -/
def evalStr (source : String) (doc : Doc) : Except RunErr ℚ :=
  match parse source with
  | .error e => .error (.parseE e)
  | .ok node => liftEval (evalNode node doc)

/-! ## Notions used by the verification: termination measure, reachable-state
invariant, and the simulation relation for appending a closing parenthesis -/

/-- The termination measure of a parser state: remaining characters, plus
one unless the end symbol is already installed.  Every `advance` that can
be followed by further work strictly decreases it. -/
def mu (st : PState) : Nat :=
  st.src.length +
    (match st.tok with
     | some t => if t.kind = .endSym then 0 else 1
     | none => 1)

/-- Invariant of the states reachable inside `parse`: the end symbol is
installed only by stream exhaustion, hence only as the canonical instance
and only with an empty stream. -/
def StInv (st : PState) : Prop :=
  ∀ t, st.tok = some t → t.kind = .endSym → t = endInst ∧ st.src = []

/-- Relation between a parser state of a run on some source and the
corresponding state of the run on the same source with `")"` appended: the
appended run holds the same current token and one extra trailing character
until the original exhausts its stream and installs the end symbol,
exactly when the appended run reads the `")"`.  Both symbols have binding
power 0 and both `nud` and `led` undefined, so successful runs coincide. -/
def Rst (a b : PState) : Prop :=
  if a.tok = some endInst then
    a.src = [] ∧ b.src = [] ∧ b.tok = some rparenInst
  else b.src = a.src ++ [')'] ∧ b.tok = a.tok

end ExprParser

deriving instance DecidableEq for Except

attribute [local semireducible] Rat.add Rat.mul Rat.sub Rat.inv

namespace ExprParser

/-! ## Helper lemmas -/

/-- Applying a registry callable to a wrong number of arguments is the
`TypeError` (`arityMismatch`), whatever the arguments are. -/
theorem OpEntry.callWith_of_arity_false (nm : String) (e : OpEntry)
    (vs : List ℚ) (h : e.arityOk vs.length = false) :
    e.callWith nm vs = .error (.arityMismatch nm) := by
  cases e <;>
    rcases vs with _ | ⟨a, _ | ⟨b, _ | ⟨c, t⟩⟩⟩ <;>
    first
      | rfl
      | simp [OpEntry.arityOk] at h

theorem dropWhile_length_le (p : Char → Bool) (l : List Char) :
    (l.dropWhile p).length ≤ l.length := by
  induction l with
  | nil => simp [List.dropWhile]
  | cons a l ih =>
    by_cases h : p a
    · simp only [List.dropWhile, h, List.length_cons]
      omega
    · simp [List.dropWhile, h]

theorem takeWhile_append_notp {p : Char → Bool} {c : Char} (hc : p c = false)
    (l : List Char) : (l ++ [c]).takeWhile p = l.takeWhile p := by
  induction l with
  | nil => simp [List.takeWhile, hc]
  | cons a l ih =>
    by_cases h : p a <;> simp [List.takeWhile, h, ih]

theorem dropWhile_append_notp {p : Char → Bool} {c : Char} (hc : p c = false)
    (l : List Char) : (l ++ [c]).dropWhile p = l.dropWhile p ++ [c] := by
  induction l with
  | nil => simp [List.dropWhile, hc]
  | cons a l ih =>
    by_cases h : p a <;> simp [List.dropWhile, h, ih]

/-- Decomposition of a successful match of the number pattern's group. -/
theorem numGroup_sound {pre rest t r : List Char}
    (h : numGroup pre rest = some (t, r)) :
    ∃ r2, rest.dropWhile Char.isDigit = '.' :: r2 ∧
      (r2.takeWhile Char.isDigit).isEmpty = false ∧
      t = pre ++ rest.takeWhile Char.isDigit ++ '.' :: r2.takeWhile Char.isDigit ∧
      r = r2.dropWhile Char.isDigit := by
  unfold numGroup at h
  rcases hd : rest.dropWhile Char.isDigit with _ | ⟨c2, r2⟩ <;> rw [hd] at h
  · simp at h
  · simp only [List.head?_cons, List.tail_cons] at h
    by_cases hc2 : c2 = '.'
    · subst hc2
      rw [if_pos rfl] at h
      by_cases he : (r2.takeWhile Char.isDigit).isEmpty
      · rw [if_pos he] at h; cases h
      · rw [if_neg he] at h
        injection h with h1
        injection h1 with ht hr
        exact ⟨r2, rfl, by simpa using he, ht.symm, hr.symm⟩
    · rw [if_neg (by simpa using hc2)] at h
      cases h

/-- Decomposition of a successful match of the bare `\d+` alternative. -/
theorem numBare_sound {cs t r : List Char} (h : numBare cs = some (t, r)) :
    (cs.takeWhile Char.isDigit).isEmpty = false ∧
      t = cs.takeWhile Char.isDigit ∧ r = cs.dropWhile Char.isDigit := by
  unfold numBare at h
  by_cases he : (cs.takeWhile Char.isDigit).isEmpty
  · rw [if_pos he] at h; cases h
  · rw [if_neg he] at h
    injection h with h1
    injection h1 with ht hr
    exact ⟨by simpa using he, ht.symm, hr.symm⟩

/-- A successful number match consumes at least one character, and the
matched text starts with a colon, a dot, or a digit (never `<`). -/
theorem matchNumber_sound {cs t r : List Char}
    (h : matchNumber cs = some (t, r)) :
    r.length < cs.length ∧ ∃ c l, t = c :: l ∧ c ≠ '<' := by
  rcases cs with _ | ⟨c, cs'⟩
  · cases h
  simp only [matchNumber] at h
  have tdlen := congrArg List.length
    (List.takeWhile_append_dropWhile (p := Char.isDigit) (l := cs'))
  simp only [List.length_append] at tdlen
  by_cases hc : c = ':'
  · rw [if_pos hc] at h
    obtain ⟨r2, hd, he, ht, hr⟩ := numGroup_sound h
    have h1 := congrArg List.length hd
    have h2 := dropWhile_length_le Char.isDigit cs'
    have h3 := dropWhile_length_le Char.isDigit r2
    simp only [List.length_cons] at h1
    subst ht hr
    exact ⟨by simp; omega, ':',
      cs'.takeWhile Char.isDigit ++ '.' :: r2.takeWhile Char.isDigit,
      by simp, by decide⟩
  · rw [if_neg hc] at h
    rcases hg : numGroup [] (c :: cs') with _ | ⟨tg, rg⟩ <;> rw [hg] at h
    · -- the bare alternative matched
      obtain ⟨he, ht, hr⟩ := numBare_sound h
      have hcd : c.isDigit = true := by
        by_contra hcd
        rw [List.takeWhile_cons_of_neg (by simpa using hcd)] at he
        cases he
      subst ht hr
      have h2 := dropWhile_length_le Char.isDigit cs'
      rw [List.dropWhile_cons_of_pos hcd, List.takeWhile_cons_of_pos hcd]
      refine ⟨by simp; omega, c, cs'.takeWhile Char.isDigit, rfl, ?_⟩
      intro hlt; rw [hlt] at hcd; cases hcd
    · cases h
      obtain ⟨r2, hd, he, ht, hr⟩ := numGroup_sound hg
      have h1 := congrArg List.length hd
      have h2 := dropWhile_length_le Char.isDigit (c :: cs')
      have h3 := dropWhile_length_le Char.isDigit r2
      have tdlen2 := congrArg List.length
        (List.takeWhile_append_dropWhile (p := Char.isDigit) (l := c :: cs'))
      simp only [List.length_append, List.length_cons] at tdlen2 h1
      subst ht hr
      constructor
      · simp; omega
      · rcases hds : (c :: cs').takeWhile Char.isDigit with _ | ⟨d, ds'⟩
        · exact ⟨'.', r2.takeWhile Char.isDigit, by simp, by decide⟩
        · have hdd : d.isDigit = true :=
            List.mem_takeWhile_imp (hds ▸ List.mem_cons_self _ _)
          refine ⟨d, ds' ++ '.' :: r2.takeWhile Char.isDigit, by simp, ?_⟩
          intro hlt; rw [hlt] at hdd; cases hdd

/-- Appending `")"` to the input does not change a successful group match
beyond the leftover input. -/
theorem numGroup_append {pre rest t r : List Char}
    (h : numGroup pre rest = some (t, r)) :
    numGroup pre (rest ++ [')']) = some (t, r ++ [')']) := by
  obtain ⟨r2, hd, he, ht, hr⟩ := numGroup_sound h
  unfold numGroup
  rw [dropWhile_append_notp (by decide) rest, hd, List.cons_append]
  simp only [List.head?_cons, List.tail_cons, if_true]
  rw [takeWhile_append_notp (by decide) r2,
    takeWhile_append_notp (by decide) rest,
    dropWhile_append_notp (by decide) r2]
  rw [if_neg (by simp [he]), ht, hr]

/-- Appending `")"` to the input does not make a failed group match
succeed. -/
theorem numGroup_none_append {pre rest : List Char}
    (h : numGroup pre rest = none) :
    numGroup pre (rest ++ [')']) = none := by
  unfold numGroup at h ⊢
  rw [dropWhile_append_notp (by decide) rest,
    takeWhile_append_notp (by decide) rest]
  rcases hd : rest.dropWhile Char.isDigit with _ | ⟨c2, r2⟩ <;> rw [hd] at h
  · simp
  · simp only [List.cons_append, List.head?_cons, List.tail_cons] at h ⊢
    by_cases hc2 : c2 = '.'
    · subst hc2
      rw [if_pos rfl] at h
      rw [if_pos rfl, takeWhile_append_notp (by decide) r2]
      by_cases he : (r2.takeWhile Char.isDigit).isEmpty
      · rw [if_pos he]
      · rw [if_neg he] at h; cases h
    · rw [if_neg (by simpa using hc2)]

/-- Appending `")"` to the input does not change a successful bare match
beyond the leftover input. -/
theorem numBare_append {cs t r : List Char} (h : numBare cs = some (t, r)) :
    numBare (cs ++ [')']) = some (t, r ++ [')']) := by
  obtain ⟨he, ht, hr⟩ := numBare_sound h
  unfold numBare
  rw [takeWhile_append_notp (by decide) cs,
    dropWhile_append_notp (by decide) cs]
  rw [Bool.eq_false_iff.mp he |> fun hne => if_neg (by simpa using hne)]
  rw [ht, hr]

/-- Appending `")"` to the input does not change a successful number match
beyond the leftover input. -/
theorem matchNumber_append {cs t r : List Char}
    (h : matchNumber cs = some (t, r)) :
    matchNumber (cs ++ [')']) = some (t, r ++ [')']) := by
  rcases cs with _ | ⟨c, cs'⟩
  · cases h
  simp only [matchNumber, List.cons_append] at h ⊢
  by_cases hc : c = ':'
  · rw [if_pos hc] at h ⊢
    exact numGroup_append h
  · rw [if_neg hc] at h ⊢
    rcases hg : numGroup [] (c :: cs') with _ | ⟨tg, rg⟩ <;> rw [hg] at h
    · have hgn := numGroup_none_append hg
      have hb := numBare_append h
      rw [List.cons_append] at hgn hb
      rw [hgn]
      exact hb
    · cases h
      have hga := numGroup_append hg
      rw [List.cons_append] at hga
      rw [hga]

theorem lexNext_nil (i : Nat) : lexNext [] i = .ok none := rfl

/-- A token produced by `lexNext` consumes at least one character, carries
one of the four lexer type tags, and its text starts with a character other
than `<` (so no token can ever be mistaken for the `"<end>"` symbol). -/
theorem lexNext_shape {cs : List Char} {i : Nat} {tk : Token}
    {rest : List Char} {p : Nat}
    (h : lexNext cs i = .ok (some (tk, rest, p))) :
    rest.length < cs.length ∧
      (tk.token_type = "<name>" ∨ tk.token_type = "<infix>" ∨
        tk.token_type = "<punct>" ∨ tk.token_type = "<number>") ∧
      ∃ c l, tk.value = String.mk (c :: l) ∧ c ≠ '<' := by
  have hsp := congrArg List.length
    (List.takeWhile_append_dropWhile (p := isSpaceC) (l := cs))
  simp only [List.length_append] at hsp
  rcases hr : cs.dropWhile isSpaceC with _ | ⟨c, cs'⟩ <;>
    simp only [lexNext, hr] at h
  · cases h
  rw [hr] at hsp
  simp only [List.length_cons] at hsp
  by_cases h1 : isLetterC c
  · rw [if_pos h1] at h
    injection h with h'
    injection h' with h''
    injection h'' with htk hrest
    injection hrest with hrest _
    subst htk hrest
    have := dropWhile_length_le isWordC cs'
    refine ⟨by omega, Or.inl rfl, c, _, rfl, ?_⟩
    intro hlt; rw [hlt] at h1; cases h1
  · rw [if_neg h1] at h
    by_cases h2 : isInfixC c
    · rw [if_pos h2] at h
      injection h with h'
      injection h' with h''
      injection h'' with htk hrest
      injection hrest with hrest _
      subst htk hrest
      refine ⟨by omega, Or.inr (Or.inl rfl), c, [], rfl, ?_⟩
      intro hlt; rw [hlt] at h2; cases h2
    · rw [if_neg h2] at h
      by_cases h3 : isPunctC c
      · rw [if_pos h3] at h
        injection h with h'
        injection h' with h''
        injection h'' with htk hrest
        injection hrest with hrest _
        subst htk hrest
        refine ⟨by omega, Or.inr (Or.inr (Or.inl rfl)), c, [], rfl, ?_⟩
        intro hlt; rw [hlt] at h3; cases h3
      · rw [if_neg h3] at h
        rcases hm : matchNumber (c :: cs') with _ | ⟨tn, rn⟩ <;> rw [hm] at h
        · cases h
        · injection h with h'
          injection h' with h''
          injection h'' with htk hrest
          injection hrest with hrest _
          subst htk hrest
          obtain ⟨hlen, c0, l0, ht0, hc0⟩ := matchNumber_sound hm
          subst ht0
          simp only [List.length_cons] at hlen
          exact ⟨by omega, Or.inr (Or.inr (Or.inr rfl)), c0, l0, rfl, hc0⟩

/-- A lookup in the module's symbol table yields the end-symbol class only
for the key `"<end>"`. -/
theorem assocGet_mem {α : Type} {k : String} {v : α} :
    ∀ {l : List (String × α)}, assocGet k l = some v → (k, v) ∈ l := by
  intro l
  induction l with
  | nil => intro h; cases h
  | cons kv rest ih =>
    intro h
    unfold assocGet at h
    by_cases hk : k = kv.1
    · rw [if_pos hk] at h
      injection h with h'
      subst h' hk
      exact List.mem_cons_self _ _
    · rw [if_neg hk] at h
      exact List.mem_cons_of_mem _ (ih h)

/-- A token produced by `lexNext` never resolves to the end-symbol class:
its text starts with a character other than `<`, and its type tag is one
of the four lexer tags. -/
theorem lexNext_resolve_not_end {cs : List Char} {i : Nat} {tk : Token}
    {rest : List Char} {p : Nat} {d : SymDef}
    (h : lexNext cs i = .ok (some (tk, rest, p)))
    (hres : resolveSym exprTable tk = some d) : d.kind ≠ .endSym := by
  intro hkind
  obtain ⟨-, htag, c, l, hval, hc⟩ := lexNext_shape h
  have hend : ∀ kv ∈ exprTable, kv.2.kind = .endSym → kv.1 = "<end>" := by
    decide
  unfold resolveSym at hres
  rcases hv : assocGet tk.value exprTable with _ | d' <;> rw [hv] at hres
  · -- resolved by type tag
    have := hend _ (assocGet_mem hres) hkind
    simp only at this
    rcases htag with h' | h' | h' | h' <;> rw [h'] at this <;>
      exact absurd this (by decide)
  · injection hres with h'
    subst h'
    have := hend _ (assocGet_mem hv) hkind
    simp only at this
    rw [hval] at this
    have hdata := congrArg String.data this
    rw [show ("<end>" : String).data = ['<', 'e', 'n', 'd', '>'] from rfl] at hdata
    injection hdata with hc' _
    exact hc hc'

/-- What `advance` (with or without an expectation) does on success: it
preserves the reachable-state invariant, never increases the measure, and
strictly decreases it unless the end symbol was already installed. -/
theorem advanceNext_ok {st st' : PState} (hinv : StInv st)
    (hn : advanceNext exprTable st = .ok st') :
    StInv st' ∧ mu st' ≤ mu st ∧
      ((∀ t, st.tok = some t → t.kind ≠ .endSym) → mu st' + 1 ≤ mu st) := by
  unfold advanceNext at hn
  rcases hl : lexNext st.src st.pos with e | o <;> rw [hl] at hn
  · exact (Except.noConfusion hn)
  rcases o with _ | ⟨tk, rest, p⟩
  · -- StopIteration: install the end symbol
    have hn' : ({ src := [], pos := st.pos, tok := some endInst } : PState)
        = st' := Except.ok.inj hn
    subst hn'
    refine ⟨?_, ?_, ?_⟩
    · intro t ht _
      injection ht with ht
      exact ⟨ht.symm, rfl⟩
    · unfold mu
      simp [endInst]
    · intro hne
      unfold mu
      simp only [endInst, List.length_nil]
      rcases htok : st.tok with _ | t
      · simp
      · have := hne t htok
        simp [if_neg this]
  · -- a real token was produced
    have hn2 : (match resolveSym exprTable tk with
        | none => Except.error (PErr.undefinedToken tk)
        | some d =>
          Except.ok ({ src := rest, pos := p, tok := some (mkInst d tk.value) }
            : PState)) = Except.ok st' := hn
    rcases hres : resolveSym exprTable tk with _ | d <;> rw [hres] at hn2
    · exact (Except.noConfusion hn2)
    · have hn' : ({ src := rest, pos := p, tok := some (mkInst d tk.value) }
          : PState) = st' := Except.ok.inj hn2
      subst hn'
      have hkind := lexNext_resolve_not_end hl hres
      obtain ⟨hlen, -, -⟩ := lexNext_shape hl
      have hsrc : st.src ≠ [] := by
        intro h0
        rw [h0, lexNext_nil] at hl
        cases hl
      have htokne : ∀ t, st.tok = some t → t.kind ≠ .endSym := by
        intro t ht hk
        exact hsrc (hinv t ht hk).2
      refine ⟨?_, ?_, ?_⟩
      · intro t ht hk
        injection ht with ht
        rw [← ht] at hk
        exact absurd hk hkind
      · unfold mu
        simp only [mkInst, hkind]
        rcases htok : st.tok with _ | t
        · simp [if_neg hkind]; omega
        · have := htokne t htok
          simp [if_neg hkind, if_neg this]
          omega
      · intro _
        unfold mu
        rcases htok : st.tok with _ | t
        · simp [mkInst, if_neg hkind]; omega
        · have := htokne t htok
          simp [mkInst, if_neg hkind, if_neg this]
          omega

/-- What `advance` (with or without an expectation) does on success. -/
theorem advance_ok {exp : Option String} {st st' : PState} (hinv : StInv st)
    (h : advance exprTable exp st = .ok st') :
    StInv st' ∧ mu st' ≤ mu st ∧
      ((∀ t, st.tok = some t → t.kind ≠ .endSym) → mu st' + 1 ≤ mu st) := by
  unfold advance at h
  rcases exp with _ | v
  · exact advanceNext_ok hinv h
  · rcases htok : st.tok with _ | t <;> rw [htok] at h
    · exact (Except.noConfusion h)
    · have h2 : (if v ≠ t.value ∧ v ≠ t.sid
          then Except.error (PErr.expected v t.value)
          else advanceNext exprTable st) = Except.ok st' := h
      by_cases hv : v ≠ t.value ∧ v ≠ t.sid
      · rw [if_pos hv] at h2
        exact (Except.noConfusion h2)
      · rw [if_neg hv] at h2
        rw [← htok]
        exact advanceNext_ok hinv h2

/-- A successful prefix action implies the symbol has one (its class is not
the end symbol's). -/
theorem nudRun_ok_kind {fuel : Nat} {sym : SymInst} {st : PState}
    {r : Node × PState} (h : nudRun fuel sym st = .ok r) :
    sym.kind ≠ .endSym := by
  intro hk
  rcases fuel with _ | fuel
  · exact Except.noConfusion h
  · obtain ⟨k, l, v, s⟩ := sym
    simp only at hk
    subst hk
    exact Except.noConfusion h

/-- Mutual measure and invariant preservation: a successful run of any of
the engine's recursive functions preserves the reachable-state invariant
and never increases the measure; a successful `expression` run, which
always consumes its anchor token, strictly decreases it. -/
theorem run_measure : ∀ fuel : Nat,
    (∀ rbp st t st', StInv st → expression fuel rbp st = .ok (t, st') →
      StInv st' ∧ mu st' + 1 ≤ mu st) ∧
    (∀ sym st t st', StInv st → nudRun fuel sym st = .ok (t, st') →
      StInv st' ∧ mu st' ≤ mu st) ∧
    (∀ rbp left st t st', StInv st → exprLoop fuel rbp left st = .ok (t, st') →
      StInv st' ∧ mu st' ≤ mu st) ∧
    (∀ sym left st t st', StInv st → ledRun fuel sym left st = .ok (t, st') →
      StInv st' ∧ mu st' ≤ mu st) ∧
    (∀ args st ts st', StInv st → argsLoop fuel args st = .ok (ts, st') →
      StInv st' ∧ mu st' ≤ mu st) := by
  intro fuel
  induction fuel with
  | zero =>
    exact ⟨fun _ _ _ _ _ h => Except.noConfusion h,
      fun _ _ _ _ _ h => Except.noConfusion h,
      fun _ _ _ _ _ _ h => Except.noConfusion h,
      fun _ _ _ _ _ _ h => Except.noConfusion h,
      fun _ _ _ _ _ h => Except.noConfusion h⟩
  | succ fuel ih =>
    obtain ⟨ihE, ihN, ihL, ihD, ihA⟩ := ih
    refine ⟨?_, ?_, ?_, ?_, ?_⟩
    · -- expression
      intro rbp st t st' hinv h
      simp only [expression] at h
      split at h
      · exact Except.noConfusion h
      · rename_i anchor heq
        rcases hadv : advance exprTable none st with e | st1 <;>
          rw [hadv] at h <;> simp only [bind, Except.bind] at h
        · exact Except.noConfusion h
        obtain ⟨hinv1, hle1, hstrict⟩ := advance_ok hinv hadv
        rcases hnud : nudRun fuel anchor st1 with e | p <;>
          rw [hnud] at h <;> simp only [bind, Except.bind] at h
        · exact Except.noConfusion h
        obtain ⟨hinv2, hle2⟩ := ihN _ _ p.1 p.2 hinv1 hnud
        obtain ⟨hinv3, hle3⟩ := ihL _ _ _ _ _ hinv2 h
        have hanchor := nudRun_ok_kind hnud
        have hstrict' := hstrict (fun u hu => by
          rw [heq] at hu
          injection hu with hu
          rw [← hu]
          exact hanchor)
        exact ⟨hinv3, by omega⟩
    · -- nudRun
      intro sym st t st' hinv h
      simp only [nudRun] at h
      split at h
      · -- Literal.nud on a number
        cases Except.ok.inj h
        exact ⟨hinv, le_refl _⟩
      · -- Literal.nud on a name
        cases Except.ok.inj h
        exact ⟨hinv, le_refl _⟩
      · -- Prefix.nud
        rcases hexp : expression fuel 80 st with e | p <;>
          rw [hexp] at h <;> simp only [bind, Except.bind] at h
        · exact Except.noConfusion h
        obtain ⟨hinv1, hlt1⟩ := ihE _ _ p.1 p.2 hinv hexp
        cases Except.ok.inj h
        exact ⟨hinv1, by omega⟩
      · -- FunctionCall.nud
        rcases hexp : expression fuel 0 st with e | p <;>
          rw [hexp] at h <;> simp only [bind, Except.bind] at h
        · exact Except.noConfusion h
        obtain ⟨hinv1, hlt1⟩ := ihE _ _ p.1 p.2 hinv hexp
        rcases hadv : advance exprTable (some ")") p.2 with e | st2 <;>
          rw [hadv] at h <;> simp only [bind, Except.bind] at h
        · exact Except.noConfusion h
        obtain ⟨hinv2, hle2, -⟩ := advance_ok hinv1 hadv
        cases Except.ok.inj h
        exact ⟨hinv2, by omega⟩
      · -- Symbol.nud raises
        exact Except.noConfusion h
    · -- exprLoop
      intro rbp left st t st' hinv h
      simp only [exprLoop] at h
      split at h
      · exact Except.noConfusion h
      · rename_i tcur heq
        by_cases hlt : rbp < tcur.lbp
        · rw [if_pos hlt] at h
          rcases hadv : advance exprTable none st with e | st1 <;>
            rw [hadv] at h <;> simp only [bind, Except.bind] at h
          · exact Except.noConfusion h
          obtain ⟨hinv1, hle1, hstrict⟩ := advance_ok hinv hadv
          rcases hled : ledRun fuel tcur left st1 with e | p <;>
            rw [hled] at h <;> simp only [bind, Except.bind] at h
          · exact Except.noConfusion h
          obtain ⟨hinv2, hle2⟩ := ihD _ _ _ p.1 p.2 hinv1 hled
          obtain ⟨hinv3, hle3⟩ := ihL _ _ _ _ _ hinv2 h
          have hne : tcur.kind ≠ .endSym := by
            intro hk
            obtain ⟨he, -⟩ := hinv tcur heq hk
            rw [he] at hlt
            simp [endInst] at hlt
          have hstrict' := hstrict (fun u hu => by
            rw [heq] at hu
            injection hu with hu
            rw [← hu]
            exact hne)
          exact ⟨hinv3, by omega⟩
        · rw [if_neg hlt] at h
          cases Except.ok.inj h
          exact ⟨hinv, le_refl _⟩
    · -- ledRun
      intro sym left st t st' hinv h
      simp only [ledRun] at h
      split at h
      · -- Infix.led
        rcases hexp : expression fuel (sym.lbp - _) st with e | p <;>
          rw [hexp] at h <;> simp only [bind, Except.bind] at h
        · exact Except.noConfusion h
        obtain ⟨hinv1, hlt1⟩ := ihE _ _ p.1 p.2 hinv hexp
        cases Except.ok.inj h
        exact ⟨hinv1, by omega⟩
      · -- Minus.led (inherited Infix.led)
        rcases hexp : expression fuel sym.lbp st with e | p <;>
          rw [hexp] at h <;> simp only [bind, Except.bind] at h
        · exact Except.noConfusion h
        obtain ⟨hinv1, hlt1⟩ := ihE _ _ p.1 p.2 hinv hexp
        cases Except.ok.inj h
        exact ⟨hinv1, by omega⟩
      · -- FunctionCall.led
        rcases hargs : argsLoop fuel [] st with e | p <;>
          rw [hargs] at h <;> simp only [bind, Except.bind] at h
        · exact Except.noConfusion h
        obtain ⟨hinv1, hle1⟩ := ihA _ _ p.1 p.2 hinv hargs
        rcases hadv : advance exprTable (some ")") p.2 with e | st2 <;>
          rw [hadv] at h <;> simp only [bind, Except.bind] at h
        · exact Except.noConfusion h
        obtain ⟨hinv2, hle2, -⟩ := advance_ok hinv1 hadv
        cases Except.ok.inj h
        exact ⟨hinv2, by omega⟩
      · -- Symbol.led raises
        exact Except.noConfusion h
    · -- argsLoop
      intro args st ts st' hinv h
      simp only [argsLoop] at h
      split at h
      · exact Except.noConfusion h
      · rename_i tcur heq
        by_cases hne : tcur.value ≠ ")"
        · rw [if_pos hne] at h
          rcases hexp : expression fuel 0 st with e | p <;>
            rw [hexp] at h <;> simp only [bind, Except.bind] at h
          · exact Except.noConfusion h
          obtain ⟨hinv1, hlt1⟩ := ihE _ _ p.1 p.2 hinv hexp
          split at h
          · exact Except.noConfusion h
          · rename_i t1 heq1
            by_cases hc : t1.value ≠ ","
            · rw [if_pos hc] at h
              cases Except.ok.inj h
              exact ⟨hinv1, by omega⟩
            · rw [if_neg hc] at h
              rcases hadv : advance exprTable (some ",") p.2 with e | st2 <;>
                rw [hadv] at h <;> simp only [bind, Except.bind] at h
              · exact Except.noConfusion h
              obtain ⟨hinv2, hle2, -⟩ := advance_ok hinv1 hadv
              obtain ⟨hinv3, hle3⟩ := ihA _ _ _ _ hinv2 h
              exact ⟨hinv3, by omega⟩
        · rw [if_neg hne] at h
          cases Except.ok.inj h
          exact ⟨hinv, le_refl _⟩

/-- `advance` never reports fuel exhaustion: every failure is a real
parser or lexer error. -/
theorem advance_no_fuel {tbl : List (String × SymDef)} {exp : Option String}
    {st : PState} {e : PErr} (h : advance tbl exp st = .error e) :
    e ≠ .outOfFuel := by
  have core : ∀ e', advanceNext tbl st = .error e' → e' ≠ .outOfFuel := by
    intro e' hn
    unfold advanceNext at hn
    rcases hl : lexNext st.src st.pos with el | o <;> rw [hl] at hn
    · cases Except.error.inj hn
      exact fun hc => PErr.noConfusion hc
    rcases o with _ | ⟨tk, rest, p⟩
    · exact Except.noConfusion hn
    · have hn2 : (match resolveSym tbl tk with
          | none => Except.error (PErr.undefinedToken tk)
          | some d =>
            Except.ok ({ src := rest, pos := p, tok := some (mkInst d tk.value) }
              : PState)) = Except.error e' := hn
      rcases hres : resolveSym tbl tk with _ | d <;> rw [hres] at hn2
      · cases Except.error.inj hn2
        exact fun hc => PErr.noConfusion hc
      · exact Except.noConfusion hn2
  unfold advance at h
  rcases exp with _ | v
  · exact core e h
  · rcases htok : st.tok with _ | t <;> rw [htok] at h
    · cases Except.error.inj h
      exact fun hc => PErr.noConfusion hc
    · have h2 : (if v ≠ t.value ∧ v ≠ t.sid
          then Except.error (PErr.expected v t.value)
          else advanceNext tbl st) = Except.error e := h
      by_cases hv : v ≠ t.value ∧ v ≠ t.sid
      · rw [if_pos hv] at h2
        cases Except.error.inj h2
        exact fun hc => PErr.noConfusion hc
      · rw [if_neg hv] at h2
        exact core e h2

/-- Fuel sufficiency: with fuel at least twice the measure (plus a small
constant depending on the entry point), no run of the engine's recursive
functions ever reports fuel exhaustion — every advance consumes input, so
the supplied budget covers the whole parse. -/
theorem run_fuel : ∀ fuel : Nat,
    (∀ rbp st, StInv st → 2 * mu st + 2 ≤ fuel →
      expression fuel rbp st ≠ .error .outOfFuel) ∧
    (∀ sym st, StInv st → 2 * mu st + 3 ≤ fuel →
      nudRun fuel sym st ≠ .error .outOfFuel) ∧
    (∀ rbp left st, StInv st → 2 * mu st + 3 ≤ fuel →
      exprLoop fuel rbp left st ≠ .error .outOfFuel) ∧
    (∀ sym left st, StInv st → 2 * mu st + 4 ≤ fuel →
      ledRun fuel sym left st ≠ .error .outOfFuel) ∧
    (∀ args st, StInv st → 2 * mu st + 3 ≤ fuel →
      argsLoop fuel args st ≠ .error .outOfFuel) := by
  intro fuel
  induction fuel with
  | zero =>
    refine ⟨?_, ?_, ?_, ?_, ?_⟩ <;> intros <;> omega
  | succ fuel ih =>
    obtain ⟨ihE, ihN, ihL, ihD, ihA⟩ := ih
    refine ⟨?_, ?_, ?_, ?_, ?_⟩
    · -- expression
      intro rbp st hinv hf heq
      simp only [expression] at heq
      split at heq
      · exact PErr.noConfusion (Except.error.inj heq)
      · rename_i anchor htok
        rcases hadv : advance exprTable none st with e | st1 <;>
          rw [hadv] at heq <;> simp only [bind, Except.bind] at heq
        · cases Except.error.inj heq
          exact absurd hadv (fun hc => advance_no_fuel hc rfl)
        obtain ⟨hinv1, hle1, hstrict⟩ := advance_ok hinv hadv
        by_cases hk : anchor.kind = .endSym
        · -- undefined prefix action: fails, but with a real error
          obtain ⟨k, l, v, s⟩ := anchor
          simp only at hk
          subst hk
          rcases fuel with _ | f
          · omega
          · rw [show nudRun (f + 1) ⟨SymKind.endSym, l, v, s⟩ st1 =
                .error (.nudUndefined v) from rfl] at heq
            simp only [bind, Except.bind] at heq
            exact PErr.noConfusion (Except.error.inj heq)
        · have hstrict' := hstrict (fun u hu => by
            rw [htok] at hu
            injection hu with hu
            rw [← hu]
            exact hk)
          rcases hnud : nudRun fuel anchor st1 with e | p <;>
            rw [hnud] at heq <;> simp only [bind, Except.bind] at heq
          · cases Except.error.inj heq
            exact ihN anchor st1 hinv1 (by omega) hnud
          · obtain ⟨hinv2, hle2⟩ := (run_measure fuel).2.1 _ _ p.1 p.2 hinv1 hnud
            exact ihL rbp p.1 p.2 hinv2 (by omega) heq
    · -- nudRun
      intro sym st hinv hf heq
      simp only [nudRun] at heq
      split at heq
      · exact Except.noConfusion heq
      · exact Except.noConfusion heq
      · -- Prefix.nud
        rcases hexp : expression fuel 80 st with e | p <;>
          rw [hexp] at heq <;> simp only [bind, Except.bind] at heq
        · cases Except.error.inj heq
          exact ihE 80 st hinv (by omega) hexp
        · exact Except.noConfusion heq
      · -- FunctionCall.nud
        rcases hexp : expression fuel 0 st with e | p <;>
          rw [hexp] at heq <;> simp only [bind, Except.bind] at heq
        · cases Except.error.inj heq
          exact ihE 0 st hinv (by omega) hexp
        · rcases hadv : advance exprTable (some ")") p.2 with e | st2 <;>
            rw [hadv] at heq <;> simp only [bind, Except.bind] at heq
          · cases Except.error.inj heq
            exact absurd hadv (fun hc => advance_no_fuel hc rfl)
          · exact Except.noConfusion heq
      · exact PErr.noConfusion (Except.error.inj heq)
    · -- exprLoop
      intro rbp left st hinv hf heq
      simp only [exprLoop] at heq
      split at heq
      · exact PErr.noConfusion (Except.error.inj heq)
      · rename_i tcur htok
        by_cases hlt : rbp < tcur.lbp
        · rw [if_pos hlt] at heq
          rcases hadv : advance exprTable none st with e | st1 <;>
            rw [hadv] at heq <;> simp only [bind, Except.bind] at heq
          · cases Except.error.inj heq
            exact absurd hadv (fun hc => advance_no_fuel hc rfl)
          obtain ⟨hinv1, hle1, hstrict⟩ := advance_ok hinv hadv
          have hne : tcur.kind ≠ .endSym := by
            intro hk
            obtain ⟨he, -⟩ := hinv tcur htok hk
            rw [he] at hlt
            simp [endInst] at hlt
          have hstrict' := hstrict (fun u hu => by
            rw [htok] at hu
            injection hu with hu
            rw [← hu]
            exact hne)
          rcases hled : ledRun fuel tcur left st1 with e | p <;>
            rw [hled] at heq <;> simp only [bind, Except.bind] at heq
          · cases Except.error.inj heq
            exact ihD tcur left st1 hinv1 (by omega) hled
          · obtain ⟨hinv2, hle2⟩ :=
              (run_measure fuel).2.2.2.1 _ _ _ p.1 p.2 hinv1 hled
            exact ihL rbp p.1 p.2 hinv2 (by omega) heq
        · rw [if_neg hlt] at heq
          exact Except.noConfusion heq
    · -- ledRun
      intro sym left st hinv hf heq
      simp only [ledRun] at heq
      split at heq
      · -- Infix.led
        rcases hexp : expression fuel (sym.lbp - _) st with e | p <;>
          rw [hexp] at heq <;> simp only [bind, Except.bind] at heq
        · cases Except.error.inj heq
          exact ihE _ st hinv (by omega) hexp
        · exact Except.noConfusion heq
      · -- Minus.led
        rcases hexp : expression fuel sym.lbp st with e | p <;>
          rw [hexp] at heq <;> simp only [bind, Except.bind] at heq
        · cases Except.error.inj heq
          exact ihE _ st hinv (by omega) hexp
        · exact Except.noConfusion heq
      · -- FunctionCall.led
        rcases hargs : argsLoop fuel [] st with e | p <;>
          rw [hargs] at heq <;> simp only [bind, Except.bind] at heq
        · cases Except.error.inj heq
          exact ihA [] st hinv (by omega) hargs
        · rcases hadv : advance exprTable (some ")") p.2 with e | st2 <;>
            rw [hadv] at heq <;> simp only [bind, Except.bind] at heq
          · cases Except.error.inj heq
            exact absurd hadv (fun hc => advance_no_fuel hc rfl)
          · exact Except.noConfusion heq
      · exact PErr.noConfusion (Except.error.inj heq)
    · -- argsLoop
      intro args st hinv hf heq
      simp only [argsLoop] at heq
      split at heq
      · exact PErr.noConfusion (Except.error.inj heq)
      · rename_i tcur htok
        by_cases hne : tcur.value ≠ ")"
        · rw [if_pos hne] at heq
          rcases hexp : expression fuel 0 st with e | p <;>
            rw [hexp] at heq <;> simp only [bind, Except.bind] at heq
          · cases Except.error.inj heq
            exact ihE 0 st hinv (by omega) hexp
          obtain ⟨hinv1, hlt1⟩ := (run_measure fuel).1 _ _ p.1 p.2 hinv hexp
          split at heq
          · exact PErr.noConfusion (Except.error.inj heq)
          · rename_i t1 htok1
            by_cases hc : t1.value ≠ ","
            · rw [if_pos hc] at heq
              exact Except.noConfusion heq
            · rw [if_neg hc] at heq
              rcases hadv : advance exprTable (some ",") p.2 with e | st2 <;>
                rw [hadv] at heq <;> simp only [bind, Except.bind] at heq
              · cases Except.error.inj heq
                exact absurd hadv (fun hcf => advance_no_fuel hcf rfl)
              obtain ⟨hinv2, hle2, hstrict⟩ := advance_ok hinv1 hadv
              have hknd : ∀ u, p.2.tok = some u → u.kind ≠ .endSym := by
                intro u hu hk
                obtain ⟨he, -⟩ := hinv1 u hu hk
                rw [htok1] at hu
                injection hu with hu
                rw [hu, he] at hc
                simp [endInst] at hc
              have hstrict' := hstrict hknd
              exact ihA (args ++ [p.1]) st2 hinv2 (by omega) heq
        · rw [if_neg hne] at heq
          exact Except.noConfusion heq

/-! ## Termination of `parse` (C10) -/

/-- C10: for every source string, `parse` terminates — it returns a node
or raises a parser or lexer error, never exhausting the fueled embedding's
budget: every iteration of the binding-power loop, every prefix/infix
recursion and every argument iteration consumes at least one token, and
stream exhaustion installs the binding-power-0 end symbol that stops every
loop, so fuel `2 * length + 2` always suffices. -/
theorem parse_terminates : ∀ source : String,
    parse source ≠ .error .outOfFuel := by
  intro s heq
  unfold parse parseFull at heq
  rcases hadv : advance exprTable none ⟨s.data, 0, none⟩ with e | st1 <;>
    rw [hadv] at heq <;> simp only [bind, Except.bind, Except.map] at heq
  · cases Except.error.inj heq
    exact absurd hadv (fun hc => advance_no_fuel hc rfl)
  · have hinv0 : StInv ⟨s.data, 0, none⟩ := by
      intro t ht hk
      exact Option.noConfusion ht
    obtain ⟨hinv1, hle1, hstrict⟩ := advance_ok hinv0 hadv
    have hstrict' := hstrict (fun t ht => Option.noConfusion ht)
    have hmu0 : mu ⟨s.data, 0, none⟩ = s.data.length + 1 := rfl
    have hfuel : fuelFor s = 2 * s.data.length + 2 := rfl
    rcases hexp : expression (fuelFor s) 0 st1 with e | p <;>
      rw [hexp] at heq <;> simp only [Except.map] at heq
    · cases Except.error.inj heq
      exact (run_fuel (fuelFor s)).1 0 st1 hinv1 (by omega) hexp
    · exact Except.noConfusion heq

/-! ## Unfolding equations used by the simulation argument -/

theorem lexNext_ws {cs : List Char} {i : Nat}
    (h : cs.dropWhile isSpaceC = []) : lexNext cs i = .ok none := by
  simp only [lexNext]
  rw [h]

theorem lexNext_cons {cs : List Char} {i : Nat} {c : Char} {cs' : List Char}
    (h : cs.dropWhile isSpaceC = c :: cs') :
    lexNext cs i =
      (let j := i + (cs.takeWhile isSpaceC).length
       if isLetterC c then
         .ok (some (⟨"<name>", String.mk (c :: cs'.takeWhile isWordC), j⟩,
           cs'.dropWhile isWordC, j + 1 + (cs'.takeWhile isWordC).length))
       else if isInfixC c then
         .ok (some (⟨"<infix>", String.mk [c], j⟩, cs', j + 1))
       else if isPunctC c then
         .ok (some (⟨"<punct>", String.mk [c], j⟩, cs', j + 1))
       else
         match matchNumber (c :: cs') with
         | some (tokChars, rest') =>
           .ok (some (⟨"<number>", String.mk tokChars, j⟩, rest',
             j + tokChars.length))
         | none => .error ⟨j, c⟩) := by
  simp only [lexNext]
  rw [h]

theorem advanceNext_eq_err {tbl : List (String × SymDef)} {st : PState}
    {e : LexErr} (h : lexNext st.src st.pos = .error e) :
    advanceNext tbl st = .error (.lexError e) := by
  unfold advanceNext
  rw [h]

theorem advanceNext_eq_none {tbl : List (String × SymDef)} {st : PState}
    (h : lexNext st.src st.pos = .ok none) :
    advanceNext tbl st = .ok ⟨[], st.pos, some endInst⟩ := by
  unfold advanceNext
  rw [h]

theorem advanceNext_eq_some {tbl : List (String × SymDef)} {st : PState}
    {tk : Token} {rest : List Char} {p : Nat}
    (h : lexNext st.src st.pos = .ok (some (tk, rest, p))) :
    advanceNext tbl st =
      (match resolveSym tbl tk with
       | none => .error (.undefinedToken tk)
       | some d => .ok ⟨rest, p, some (mkInst d tk.value)⟩) := by
  unfold advanceNext
  rw [h]

theorem advance_none_eq (tbl : List (String × SymDef)) (st : PState) :
    advance tbl none st = advanceNext tbl st := rfl

theorem advance_some_none {tbl : List (String × SymDef)} {v : String}
    {st : PState} (h : st.tok = none) :
    advance tbl (some v) st = .error .noCurrentToken := by
  unfold advance
  rw [h]

theorem advance_some_eq {tbl : List (String × SymDef)} {v : String}
    {st : PState} {t : SymInst} (h : st.tok = some t) :
    advance tbl (some v) st =
      (if v ≠ t.value ∧ v ≠ t.sid then .error (.expected v t.value)
       else advanceNext tbl st) := by
  unfold advance
  rw [h]

theorem expression_succ {fuel rbp : Nat} {st : PState} {anchor : SymInst}
    (h : st.tok = some anchor) :
    expression (fuel + 1) rbp st = (do
      let st1 ← advance exprTable none st
      let (left, st2) ← nudRun fuel anchor st1
      exprLoop fuel rbp left st2) := by
  simp only [expression]
  rw [h]

theorem exprLoop_succ {fuel rbp : Nat} {left : Node} {st : PState}
    {t : SymInst} (h : st.tok = some t) :
    exprLoop (fuel + 1) rbp left st =
      (if rbp < t.lbp then do
        let st1 ← advance exprTable none st
        let (left', st2) ← ledRun fuel t left st1
        exprLoop fuel rbp left' st2
      else .ok (left, st)) := by
  simp only [exprLoop]
  rw [h]

theorem argsLoop_succ {fuel : Nat} {args : List Node} {st : PState}
    {t : SymInst} (h : st.tok = some t) :
    argsLoop (fuel + 1) args st =
      (if t.value ≠ ")" then do
        let (e, st1) ← expression fuel 0 st
        match st1.tok with
        | none => .error .noCurrentToken
        | some t1 =>
          if t1.value ≠ "," then .ok (args ++ [e], st1)
          else do
            let st2 ← advance exprTable (some ",") st1
            argsLoop fuel (args ++ [e]) st2
      else .ok (args, st)) := by
  simp only [argsLoop]
  rw [h]

theorem nudRun_succ_number {fuel : Nat} {sym : SymInst} {st : PState}
    (h : sym.kind = .numberSym) :
    nudRun (fuel + 1) sym st = .ok (.number sym.value, st) := by
  simp only [nudRun]
  rw [h]

theorem nudRun_succ_name {fuel : Nat} {sym : SymInst} {st : PState}
    (h : sym.kind = .nameSym) :
    nudRun (fuel + 1) sym st = .ok (.ref sym.value, st) := by
  simp only [nudRun]
  rw [h]

theorem nudRun_succ_minus {fuel : Nat} {sym : SymInst} {st : PState}
    (h : sym.kind = .minusSym) :
    nudRun (fuel + 1) sym st = (do
      let (operand, st') ← expression fuel 80 st
      .ok (.neg operand, st')) := by
  simp only [nudRun]
  rw [h]

theorem nudRun_succ_call {fuel : Nat} {sym : SymInst} {st : PState}
    (h : sym.kind = .callSym) :
    nudRun (fuel + 1) sym st = (do
      let (inner, st') ← expression fuel 0 st
      let st'' ← advance exprTable (some ")") st'
      .ok (inner, st'')) := by
  simp only [nudRun]
  rw [h]

theorem ledRun_succ_binop {fuel : Nat} {sym : SymInst} {left : Node}
    {st : PState} {ra : Bool} (h : sym.kind = .infixSym ra) :
    ledRun (fuel + 1) sym left st = (do
      let (right, st') ← expression fuel (sym.lbp - (if ra then 1 else 0)) st
      .ok (.binop sym.value left right, st')) := by
  simp only [ledRun]
  rw [h]

theorem ledRun_succ_minus {fuel : Nat} {sym : SymInst} {left : Node}
    {st : PState} (h : sym.kind = .minusSym) :
    ledRun (fuel + 1) sym left st = (do
      let (right, st') ← expression fuel sym.lbp st
      .ok (.binop sym.value left right, st')) := by
  simp only [ledRun]
  rw [h]

theorem ledRun_succ_call {fuel : Nat} {sym : SymInst} {left : Node}
    {st : PState} (h : sym.kind = .callSym) :
    ledRun (fuel + 1) sym left st = (do
      let (args, st') ← argsLoop fuel [] st
      let st'' ← advance exprTable (some ")") st'
      .ok (.call left args, st'')) := by
  simp only [ledRun]
  rw [h]

/-! ## Appending a closing parenthesis: the lexer side -/

/-- A token match is unaffected by a `")"` appended after the input: the
same token results, with the `")"` left over. -/
theorem lexNext_append_token {cs : List Char} {i : Nat} {tk : Token}
    {rest : List Char} {p : Nat}
    (h : lexNext cs i = .ok (some (tk, rest, p))) (j : Nat) :
    ∃ tk' p', lexNext (cs ++ [')']) j = .ok (some (tk', rest ++ [')'], p')) ∧
      tk'.value = tk.value ∧ tk'.token_type = tk.token_type := by
  rcases hr : cs.dropWhile isSpaceC with _ | ⟨c, cs'⟩
  · rw [lexNext_ws hr] at h
    exact Option.noConfusion (Except.ok.inj h)
  · rw [lexNext_cons hr] at h
    have hr' : (cs ++ [')']).dropWhile isSpaceC = c :: (cs' ++ [')']) := by
      rw [dropWhile_append_notp (by decide) cs, hr, List.cons_append]
    rw [lexNext_cons hr']
    simp only at h ⊢
    by_cases h1 : isLetterC c
    · rw [if_pos h1] at h ⊢
      cases Option.some.inj (Except.ok.inj h)
      rw [takeWhile_append_notp (by decide) cs',
        dropWhile_append_notp (by decide) cs']
      exact ⟨_, _, rfl, rfl, rfl⟩
    · rw [if_neg h1] at h ⊢
      by_cases h2 : isInfixC c
      · rw [if_pos h2] at h ⊢
        cases Option.some.inj (Except.ok.inj h)
        exact ⟨_, _, rfl, rfl, rfl⟩
      · rw [if_neg h2] at h ⊢
        by_cases h3 : isPunctC c
        · rw [if_pos h3] at h ⊢
          cases Option.some.inj (Except.ok.inj h)
          exact ⟨_, _, rfl, rfl, rfl⟩
        · rw [if_neg h3] at h ⊢
          rcases hm : matchNumber (c :: cs') with _ | ⟨tn, rn⟩ <;>
            rw [hm] at h
          · exact Except.noConfusion h
          · cases Option.some.inj (Except.ok.inj h)
            have hm' := matchNumber_append hm
            rw [List.cons_append] at hm'
            rw [hm']
            exact ⟨_, _, rfl, rfl, rfl⟩

/-- When the lexer is exhausted, the appended `")"` is the next token. -/
theorem lexNext_append_end {cs : List Char} {i : Nat}
    (h : lexNext cs i = .ok none) (j : Nat) :
    ∃ p', lexNext (cs ++ [')']) j =
      .ok (some (⟨"<punct>", ")", p'⟩, [], p' + 1)) := by
  rcases hr : cs.dropWhile isSpaceC with _ | ⟨c, cs'⟩
  · have hr' : (cs ++ [')']).dropWhile isSpaceC = [')'] := by
      rw [dropWhile_append_notp (by decide) cs, hr]
      rfl
    rw [lexNext_cons hr']
    simp only
    rw [if_neg (by decide), if_neg (by decide), if_pos (by decide)]
    exact ⟨_, rfl⟩
  · rw [lexNext_cons hr] at h
    simp only at h
    by_cases h1 : isLetterC c
    · rw [if_pos h1] at h
      exact Option.noConfusion (Except.ok.inj h)
    · rw [if_neg h1] at h
      by_cases h2 : isInfixC c
      · rw [if_pos h2] at h
        exact Option.noConfusion (Except.ok.inj h)
      · rw [if_neg h2] at h
        by_cases h3 : isPunctC c
        · rw [if_pos h3] at h
          exact Option.noConfusion (Except.ok.inj h)
        · rw [if_neg h3] at h
          rcases hm : matchNumber (c :: cs') with _ | ⟨tn, rn⟩ <;>
            rw [hm] at h
          · exact Except.noConfusion h
          · exact Option.noConfusion (Except.ok.inj h)

/-- Symbol resolution depends only on the token's text and type tag. -/
theorem resolveSym_congr {tbl : List (String × SymDef)} {t1 t2 : Token}
    (hv : t1.value = t2.value) (ht : t1.token_type = t2.token_type) :
    resolveSym tbl t1 = resolveSym tbl t2 := by
  unfold resolveSym
  rw [hv, ht]

/-! ## Appending a closing parenthesis: the engine side -/

/-- The core of `advance` on related states: the appended run produces the
same current token with the trailing `")"` kept, or reads the `")"`
exactly when the original run exhausts its stream. -/
theorem advanceNext_append {a b a' : PState}
    (hsrc : b.src = a.src ++ [')'])
    (h : advanceNext exprTable a = .ok a') :
    ∃ b', advanceNext exprTable b = .ok b' ∧ Rst a' b' := by
  rcases hl : lexNext a.src a.pos with e | o
  · rw [advanceNext_eq_err hl] at h
    exact Except.noConfusion h
  rcases o with _ | ⟨tk, rest, p⟩
  · rw [advanceNext_eq_none hl] at h
    cases Except.ok.inj h
    obtain ⟨p', hb⟩ := lexNext_append_end hl b.pos
    rw [← hsrc] at hb
    refine ⟨⟨[], p' + 1, some (mkInst ⟨.plainSym, 0, ")"⟩ ")")⟩, ?_, ?_⟩
    · rw [advanceNext_eq_some hb]
      rfl
    · unfold Rst
      rw [if_pos rfl]
      exact ⟨rfl, rfl, rfl⟩
  · rw [advanceNext_eq_some hl] at h
    rcases hres : resolveSym exprTable tk with _ | d <;> rw [hres] at h
    · exact Except.noConfusion h
    cases Except.ok.inj h
    obtain ⟨tk', p', hb, hv, ht⟩ := lexNext_append_token hl b.pos
    rw [← hsrc] at hb
    have hres' : resolveSym exprTable tk' = some d := by
      rw [resolveSym_congr hv ht, hres]
    have hkind : d.kind ≠ .endSym := lexNext_resolve_not_end hl hres
    refine ⟨⟨rest ++ [')'], p', some (mkInst d tk'.value)⟩, ?_, ?_⟩
    · rw [advanceNext_eq_some hb, hres']
    · unfold Rst
      rw [if_neg (show ¬ ((⟨rest, p, some (mkInst d tk.value)⟩ :
          PState).tok = some endInst) by
        intro hcon
        simp only at hcon
        injection hcon with hcon
        exact hkind (congrArg SymInst.kind hcon))]
      exact ⟨by simp, by rw [hv]⟩

/-- `advance` on related states (the expectation check reads only the
current token, which the relation makes equal). -/
theorem advance_append {exp : Option String} {a b a' : PState}
    (hsrc : b.src = a.src ++ [')']) (htok : b.tok = a.tok)
    (h : advance exprTable exp a = .ok a') :
    ∃ b', advance exprTable exp b = .ok b' ∧ Rst a' b' := by
  rcases exp with _ | v
  · exact advanceNext_append hsrc h
  · rcases hat : a.tok with _ | t
    · rw [advance_some_none hat] at h
      exact Except.noConfusion h
    · have hbt : b.tok = some t := htok.trans hat
      rw [advance_some_eq hat] at h
      by_cases hv : v ≠ t.value ∧ v ≠ t.sid
      · rw [if_pos hv] at h
        exact Except.noConfusion h
      · rw [if_neg hv] at h
        obtain ⟨b', hb, hr⟩ := advanceNext_append hsrc h
        refine ⟨b', ?_, hr⟩
        rw [advance_some_eq hbt, if_neg hv]
        exact hb

/-- `expression` can never succeed when the end symbol is current: its
anchor has no prefix action. -/
theorem expression_from_end {fuel rbp : Nat} {st : PState}
    {r : Node × PState} (h : st.tok = some endInst) :
    expression fuel rbp st ≠ .ok r := by
  intro hok
  rcases fuel with _ | fuel
  · exact Except.noConfusion hok
  · rw [expression_succ h] at hok
    rcases hadv : advance exprTable none st with e | st1 <;>
      rw [hadv] at hok <;> simp only [bind, Except.bind] at hok
    · exact Except.noConfusion hok
    rcases hnud : nudRun fuel endInst st1 with e | p <;>
      rw [hnud] at hok <;> simp only [bind, Except.bind] at hok
    · exact Except.noConfusion hok
    · exact nudRun_ok_kind hnud rfl

/-- The simulation: a successful run of any engine function, when repeated
on the state with `")"` appended to the stream (and any fuel at least the
original's), succeeds with the same result, ending in a related state.
The two runs track each other token by token; when the original exhausts
its stream and installs the end symbol, the appended run reads the `")"`,
and both have binding power 0 and no prefix/infix action, so every
decision coincides. -/
theorem run_append : ∀ fuel : Nat,
    (∀ fuel' rbp a b t a', fuel ≤ fuel' → Rst a b →
      expression fuel rbp a = .ok (t, a') →
      ∃ b', expression fuel' rbp b = .ok (t, b') ∧ Rst a' b') ∧
    (∀ fuel' sym a b t a', fuel ≤ fuel' → Rst a b →
      nudRun fuel sym a = .ok (t, a') →
      ∃ b', nudRun fuel' sym b = .ok (t, b') ∧ Rst a' b') ∧
    (∀ fuel' rbp left a b t a', fuel ≤ fuel' → Rst a b →
      exprLoop fuel rbp left a = .ok (t, a') →
      ∃ b', exprLoop fuel' rbp left b = .ok (t, b') ∧ Rst a' b') ∧
    (∀ fuel' sym left a b t a', fuel ≤ fuel' → Rst a b →
      ledRun fuel sym left a = .ok (t, a') →
      ∃ b', ledRun fuel' sym left b = .ok (t, b') ∧ Rst a' b') ∧
    (∀ fuel' args a b ts a', fuel ≤ fuel' → Rst a b →
      argsLoop fuel args a = .ok (ts, a') →
      ∃ b', argsLoop fuel' args b = .ok (ts, b') ∧ Rst a' b') := by
  intro fuel
  induction fuel with
  | zero =>
    exact ⟨fun _ _ _ _ _ _ _ _ h => absurd h (fun hc => Except.noConfusion hc),
      fun _ _ _ _ _ _ _ _ h => absurd h (fun hc => Except.noConfusion hc),
      fun _ _ _ _ _ _ _ _ _ h => absurd h (fun hc => Except.noConfusion hc),
      fun _ _ _ _ _ _ _ _ _ h => absurd h (fun hc => Except.noConfusion hc),
      fun _ _ _ _ _ _ _ _ h => absurd h (fun hc => Except.noConfusion hc)⟩
  | succ fuel ih =>
    obtain ⟨ihE, ihN, ihL, ihD, ihA⟩ := ih
    refine ⟨?_, ?_, ?_, ?_, ?_⟩
    · -- expression
      intro fuel' rbp a b t a' hle hr h
      rcases fuel' with _ | f'
      · omega
      simp only [expression] at h
      split at h
      · exact Except.noConfusion h
      · rename_i anchor htok
        rcases hadv : advance exprTable none a with e | a1 <;>
          rw [hadv] at h <;> simp only [bind, Except.bind] at h
        · exact Except.noConfusion h
        rcases hnud : nudRun fuel anchor a1 with e | q <;>
          rw [hnud] at h <;> simp only [bind, Except.bind] at h
        · exact Except.noConfusion h
        have hanchor : anchor ≠ endInst := by
          intro hcon
          exact nudRun_ok_kind hnud (by rw [hcon]; rfl)
        have hrc : b.src = a.src ++ [')'] ∧ b.tok = a.tok := by
          unfold Rst at hr
          rcases hae : decide (a.tok = some endInst) with _ | _
          · rw [if_neg (of_decide_eq_false hae)] at hr
            exact hr
          · exact absurd (of_decide_eq_true hae)
              (by rw [htok]; exact fun hc => hanchor (Option.some.inj hc))
        obtain ⟨b1, hbadv, hr1⟩ := advance_append hrc.1 hrc.2 hadv
        obtain ⟨b2, hbnud, hr2⟩ := ihN f' anchor a1 b1 q.1 q.2 (by omega) hr1 hnud
        obtain ⟨b', hbloop, hr'⟩ := ihL f' rbp q.1 q.2 b2 t a' (by omega) hr2 h
        refine ⟨b', ?_, hr'⟩
        rw [expression_succ (hrc.2.trans htok)]
        simp only [hbadv, hbnud, bind, Except.bind]
        exact hbloop
    · -- nudRun
      intro fuel' sym a b t a' hle hr h
      rcases fuel' with _ | f'
      · omega
      simp only [nudRun] at h
      split at h
      · -- number
        rename_i heq
        cases Except.ok.inj h
        exact ⟨b, nudRun_succ_number heq, hr⟩
      · -- name
        rename_i heq
        cases Except.ok.inj h
        exact ⟨b, nudRun_succ_name heq, hr⟩
      · -- minus
        rename_i heq
        rcases hexp : expression fuel 80 a with e | q <;>
          rw [hexp] at h <;> simp only [bind, Except.bind] at h
        · exact Except.noConfusion h
        cases Except.ok.inj h
        obtain ⟨b1, hbexp, hr1⟩ := ihE f' 80 a b q.1 q.2 (by omega) hr hexp
        refine ⟨b1, ?_, hr1⟩
        rw [nudRun_succ_minus heq]
        simp only [hbexp, bind, Except.bind]
      · -- call (grouping)
        rename_i heq
        rcases hexp : expression fuel 0 a with e | q <;>
          rw [hexp] at h <;> simp only [bind, Except.bind] at h
        · exact Except.noConfusion h
        rcases hadv2 : advance exprTable (some ")") q.2 with e | a2 <;>
          rw [hadv2] at h <;> simp only [bind, Except.bind] at h
        · exact Except.noConfusion h
        cases Except.ok.inj h
        obtain ⟨b1, hbexp, hr1⟩ := ihE f' 0 a b q.1 q.2 (by omega) hr hexp
        have hrc1 : b1.src = q.2.src ++ [')'] ∧ b1.tok = q.2.tok := by
          unfold Rst at hr1
          rcases hae : decide (q.2.tok = some endInst) with _ | _
          · rw [if_neg (of_decide_eq_false hae)] at hr1
            exact hr1
          · rw [advance_some_eq (of_decide_eq_true hae),
              if_pos (by decide)] at hadv2
            exact Except.noConfusion hadv2
        obtain ⟨b2, hbadv2, hr2⟩ := advance_append hrc1.1 hrc1.2 hadv2
        refine ⟨b2, ?_, hr2⟩
        rw [nudRun_succ_call heq]
        simp only [hbexp, hbadv2, bind, Except.bind]
      · -- no prefix action
        exact Except.noConfusion h
    · -- exprLoop
      intro fuel' rbp left a b t a' hle hr h
      rcases fuel' with _ | f'
      · omega
      simp only [exprLoop] at h
      split at h
      · exact Except.noConfusion h
      · rename_i tcur htok
        rcases hae : decide (a.tok = some endInst) with _ | _
        · -- the current tokens coincide
          have hrc : b.src = a.src ++ [')'] ∧ b.tok = a.tok := by
            unfold Rst at hr
            rw [if_neg (of_decide_eq_false hae)] at hr
            exact hr
          have hbt : b.tok = some tcur := hrc.2.trans htok
          by_cases hlt : rbp < tcur.lbp
          · rw [if_pos hlt] at h
            rcases hadv : advance exprTable none a with e | a1 <;>
              rw [hadv] at h <;> simp only [bind, Except.bind] at h
            · exact Except.noConfusion h
            rcases hled : ledRun fuel tcur left a1 with e | q <;>
              rw [hled] at h <;> simp only [bind, Except.bind] at h
            · exact Except.noConfusion h
            obtain ⟨b1, hbadv, hr1⟩ := advance_append hrc.1 hrc.2 hadv
            obtain ⟨b2, hbled, hr2⟩ :=
              ihD f' tcur left a1 b1 q.1 q.2 (by omega) hr1 hled
            obtain ⟨b', hbloop, hr'⟩ :=
              ihL f' rbp q.1 q.2 b2 t a' (by omega) hr2 h
            refine ⟨b', ?_, hr'⟩
            rw [exprLoop_succ hbt, if_pos hlt]
            simp only [hbadv, hbled, bind, Except.bind]
            exact hbloop
          · rw [if_neg hlt] at h
            cases Except.ok.inj h
            refine ⟨b, ?_, hr⟩
            rw [exprLoop_succ hbt, if_neg hlt]
        · -- original at the end symbol, appended at the ")" symbol
          have hae' := of_decide_eq_true hae
          have hparts : a.src = [] ∧ b.src = [] ∧ b.tok = some rparenInst := by
            unfold Rst at hr
            rw [if_pos hae'] at hr
            exact hr
          have hteq : tcur = endInst :=
            Option.some.inj (htok.symm.trans hae')
          by_cases hlt : rbp < tcur.lbp
          · rw [hteq] at hlt
            exact absurd hlt (by simp [endInst])
          · rw [if_neg hlt] at h
            cases Except.ok.inj h
            refine ⟨b, ?_, hr⟩
            rw [exprLoop_succ hparts.2.2, if_neg (by simp [rparenInst])]
    · -- ledRun
      intro fuel' sym left a b t a' hle hr h
      rcases fuel' with _ | f'
      · omega
      simp only [ledRun] at h
      split at h
      · -- Infix.led
        rename_i ra heq
        rcases hexp : expression fuel (sym.lbp - _) a with e | q <;>
          rw [hexp] at h <;> simp only [bind, Except.bind] at h
        · exact Except.noConfusion h
        cases Except.ok.inj h
        obtain ⟨b1, hbexp, hr1⟩ := ihE f' _ a b q.1 q.2 (by omega) hr hexp
        refine ⟨b1, ?_, hr1⟩
        rw [ledRun_succ_binop heq]
        simp only [hbexp, bind, Except.bind]
      · -- Minus.led
        rename_i heq
        rcases hexp : expression fuel sym.lbp a with e | q <;>
          rw [hexp] at h <;> simp only [bind, Except.bind] at h
        · exact Except.noConfusion h
        cases Except.ok.inj h
        obtain ⟨b1, hbexp, hr1⟩ := ihE f' _ a b q.1 q.2 (by omega) hr hexp
        refine ⟨b1, ?_, hr1⟩
        rw [ledRun_succ_minus heq]
        simp only [hbexp, bind, Except.bind]
      · -- FunctionCall.led
        rename_i heq
        rcases hargs : argsLoop fuel [] a with e | q <;>
          rw [hargs] at h <;> simp only [bind, Except.bind] at h
        · exact Except.noConfusion h
        rcases hadv2 : advance exprTable (some ")") q.2 with e | a2 <;>
          rw [hadv2] at h <;> simp only [bind, Except.bind] at h
        · exact Except.noConfusion h
        cases Except.ok.inj h
        obtain ⟨b1, hbargs, hr1⟩ := ihA f' [] a b q.1 q.2 (by omega) hr hargs
        have hrc1 : b1.src = q.2.src ++ [')'] ∧ b1.tok = q.2.tok := by
          unfold Rst at hr1
          rcases hae : decide (q.2.tok = some endInst) with _ | _
          · rw [if_neg (of_decide_eq_false hae)] at hr1
            exact hr1
          · rw [advance_some_eq (of_decide_eq_true hae),
              if_pos (by decide)] at hadv2
            exact Except.noConfusion hadv2
        obtain ⟨b2, hbadv2, hr2⟩ := advance_append hrc1.1 hrc1.2 hadv2
        refine ⟨b2, ?_, hr2⟩
        rw [ledRun_succ_call heq]
        simp only [hbargs, hbadv2, bind, Except.bind]
      · -- no infix action
        exact Except.noConfusion h
    · -- argsLoop
      intro fuel' args a b ts a' hle hr h
      rcases fuel' with _ | f'
      · omega
      simp only [argsLoop] at h
      split at h
      · exact Except.noConfusion h
      · rename_i tcur htok
        rcases hae : decide (a.tok = some endInst) with _ | _
        · have hrc : b.src = a.src ++ [')'] ∧ b.tok = a.tok := by
            unfold Rst at hr
            rw [if_neg (of_decide_eq_false hae)] at hr
            exact hr
          have hbt : b.tok = some tcur := hrc.2.trans htok
          by_cases hne : tcur.value ≠ ")"
          · rw [if_pos hne] at h
            rcases hexp : expression fuel 0 a with e | q <;>
              rw [hexp] at h <;> simp only [bind, Except.bind] at h
            · exact Except.noConfusion h
            obtain ⟨b1, hbexp, hr1⟩ := ihE f' 0 a b q.1 q.2 (by omega) hr hexp
            split at h
            · exact Except.noConfusion h
            · rename_i t1 htok1
              rcases hae1 : decide (q.2.tok = some endInst) with _ | _
              · -- the argument's trailing token coincides on both sides
                have hrc1 : b1.src = q.2.src ++ [')'] ∧ b1.tok = q.2.tok := by
                  unfold Rst at hr1
                  rw [if_neg (of_decide_eq_false hae1)] at hr1
                  exact hr1
                have hbt1 : b1.tok = some t1 := hrc1.2.trans htok1
                by_cases hc : t1.value ≠ ","
                · rw [if_pos hc] at h
                  cases Except.ok.inj h
                  refine ⟨b1, ?_, hr1⟩
                  rw [argsLoop_succ hbt, if_pos hne]
                  simp only [hbexp, bind, Except.bind]
                  split
                  · rename_i hcon
                    rw [hbt1] at hcon
                    exact Option.noConfusion hcon
                  · rename_i t1' htok1'
                    rw [hbt1] at htok1'
                    cases Option.some.inj htok1'
                    rw [if_pos hc]
                · rw [if_neg hc] at h
                  rcases hadv2 : advance exprTable (some ",") q.2 with e | a2 <;>
                    rw [hadv2] at h <;> simp only [bind, Except.bind] at h
                  · exact Except.noConfusion h
                  obtain ⟨b2, hbadv2, hr2⟩ := advance_append hrc1.1 hrc1.2 hadv2
                  obtain ⟨b', hbargs, hr'⟩ :=
                    ihA f' (args ++ [q.1]) a2 b2 ts a' (by omega) hr2 h
                  refine ⟨b', ?_, hr'⟩
                  rw [argsLoop_succ hbt, if_pos hne]
                  simp only [hbexp, bind, Except.bind]
                  split
                  · rename_i hcon
                    rw [hbt1] at hcon
                    exact Option.noConfusion hcon
                  · rename_i t1' htok1'
                    rw [hbt1] at htok1'
                    cases Option.some.inj htok1'
                    rw [if_neg hc]
                    simp only [hbadv2, bind, Except.bind]
                    exact hbargs
              · -- original argument ended at end-of-input; appended at ")"
                have hae1' := of_decide_eq_true hae1
                have hparts : q.2.src = [] ∧ b1.src = [] ∧
                    b1.tok = some rparenInst := by
                  unfold Rst at hr1
                  rw [if_pos hae1'] at hr1
                  exact hr1
                have ht1 : t1 = endInst :=
                  Option.some.inj (htok1.symm.trans hae1')
                have hc : t1.value ≠ "," := by
                  rw [ht1]
                  decide
                rw [if_pos hc] at h
                cases Except.ok.inj h
                refine ⟨b1, ?_, hr1⟩
                rw [argsLoop_succ hbt, if_pos hne]
                simp only [hbexp, bind, Except.bind]
                split
                · rename_i hcon
                  rw [hparts.2.2] at hcon
                  exact Option.noConfusion hcon
                · rename_i t1' htok1'
                  rw [hparts.2.2] at htok1'
                  cases Option.some.inj htok1'
                  rw [if_pos (by decide)]
          · rw [if_neg hne] at h
            cases Except.ok.inj h
            refine ⟨b, ?_, hr⟩
            rw [argsLoop_succ hbt, if_neg hne]
        · -- original at the end symbol: its argument expression must fail
          have hae' := of_decide_eq_true hae
          have hteq : tcur = endInst := Option.some.inj (htok.symm.trans hae')
          have hne : tcur.value ≠ ")" := by
            rw [hteq]
            decide
          rw [if_pos hne] at h
          rcases hexp : expression fuel 0 a with e | q <;>
            rw [hexp] at h <;> simp only [bind, Except.bind] at h
          · exact Except.noConfusion h
          · exact absurd hexp (expression_from_end hae')

/-! ## The claims -/

/-- C9, counterexample: `parse` does not require the input to be exhausted,
so `parse("1,2")` returns the tree for `1` (the comma terminates the
expression and the rest is ignored), while `parse("(1,2)")` fails — the
grouping action demands `")"` where the `","` stands.  The two pipelines
disagree, refuting the claim for the expression text `s = "1,2"`. -/
theorem paren_wrap_cex :
    evalStr "1,2" [] = .ok 1 ∧
    evalStr "(1,2)" [] = .error (.parseE (.expected ")" ",")) ∧
    evalStr "(1,2)" [] ≠ evalStr "1,2" [] :=
  ⟨rfl, rfl, by decide⟩

/-- C9, amended: the opening-parenthesis prefix action returns the inner
expression's root node itself (no grouping node), so for every expression
text `s` that `parse` consumes to the end of input — the final state holds
the end symbol — and every context, `parse("(" ++ s ++ ")")` returns the
very same root node, and the two pipelines evaluate identically. -/
theorem paren_wrap {s : String} {t : Node} {f : PState}
    (hparse : parseFull s = .ok (t, f)) (hend : f.tok = some endInst) :
    parse ("(" ++ s ++ ")") = .ok t ∧
    ∀ doc : Doc, evalStr ("(" ++ s ++ ")") doc = evalStr s doc := by
  have hparse0 := hparse
  unfold parseFull at hparse
  rcases hadv : advance exprTable none ⟨s.data, 0, none⟩ with e | st1 <;>
    rw [hadv] at hparse <;> simp only [bind, Except.bind] at hparse
  · exact Except.noConfusion hparse
  have hwdata : ("(" ++ s ++ ")").data = '(' :: (s.data ++ [')']) := rfl
  -- the wrapped parse reads the "(" first
  have hlex1 : lexNext (("(" ++ s ++ ")").data) 0 =
      .ok (some (⟨"<punct>", "(", 0⟩, s.data ++ [')'], 1)) := by
    have hdw : (("(" ++ s ++ ")").data).dropWhile isSpaceC =
        '(' :: (s.data ++ [')']) := by
      rw [hwdata]
      exact List.dropWhile_cons_of_neg (by decide)
    rw [lexNext_cons hdw]
    simp only
    rw [if_neg (by decide), if_neg (by decide), if_pos (by decide)]
    have htw : (("(" ++ s ++ ")").data).takeWhile isSpaceC = [] := by
      rw [hwdata]
      exact List.takeWhile_cons_of_neg (by decide)
    rw [htw]
    rfl
  have hadvW : advance exprTable none ⟨("(" ++ s ++ ")").data, 0, none⟩ =
      .ok ⟨s.data ++ [')'], 1, some ⟨.callSym, 90, "(", "("⟩⟩ := by
    rw [advance_none_eq, advanceNext_eq_some hlex1]
    rfl
  -- the second advance of the wrapped run tracks the original's first
  have hadvN : advanceNext exprTable ⟨s.data, 0, none⟩ = .ok st1 := hadv
  obtain ⟨b2, hbadv, hrel⟩ := advanceNext_append
    (b := ⟨s.data ++ [')'], 1, some ⟨.callSym, 90, "(", "("⟩⟩) rfl hadvN
  -- simulate the inner expression run with the stream extended by ")"
  obtain ⟨bF, hbexp, hrF⟩ := (run_append (fuelFor s)).1
    (2 * s.data.length + 4) 0 st1 b2 t f
    (by unfold fuelFor; omega) hrel hparse
  have hFparts : f.src = [] ∧ bF.src = [] ∧ bF.tok = some rparenInst := by
    unfold Rst at hrF
    rw [if_pos hend] at hrF
    exact hrF
  -- the grouping action then consumes the ")"
  have hlexF : lexNext bF.src bF.pos = .ok none := by
    rw [hFparts.2.1]
    exact lexNext_nil _
  have hadvR : advance exprTable (some ")") bF =
      .ok ⟨[], bF.pos, some endInst⟩ := by
    rw [advance_some_eq hFparts.2.2, if_neg (by decide)]
    exact advanceNext_eq_none hlexF
  -- assemble the wrapped run
  have hfw : fuelFor ("(" ++ s ++ ")") = (2 * s.data.length + 5) + 1 := by
    unfold fuelFor
    rw [hwdata]
    simp
    omega
  have h5 : 2 * s.data.length + 5 = (2 * s.data.length + 4) + 1 := by omega
  have hW : expression (fuelFor ("(" ++ s ++ ")")) 0
      ⟨s.data ++ [')'], 1, some ⟨.callSym, 90, "(", "("⟩⟩ =
      .ok (t, ⟨[], bF.pos, some endInst⟩) := by
    rw [hfw, expression_succ rfl, advance_none_eq]
    simp only [hbadv, bind, Except.bind]
    rw [h5, nudRun_succ_call
      (show (⟨SymKind.callSym, 90, "(", "("⟩ : SymInst).kind = SymKind.callSym
        from rfl)]
    simp only [hbexp, hadvR, bind, Except.bind]
    rw [exprLoop_succ
      (show (⟨[], bF.pos, some endInst⟩ : PState).tok = some endInst from rfl)]
    rw [if_neg (by simp [endInst])]
  have hparseW : parse ("(" ++ s ++ ")") = .ok t := by
    unfold parse parseFull
    simp only [hadvW, bind, Except.bind, hW, Except.map]
  refine ⟨hparseW, ?_⟩
  intro doc
  have hparseS : parse s = .ok t := by
    unfold parse parseFull
    simp only [hadv, bind, Except.bind, hparse, Except.map]
  unfold evalStr
  rw [hparseW, hparseS]

/-- C9, witness for the amended theorem at `s = "1"`. -/
theorem paren_wrap_witness :
    parse ("(" ++ "1" ++ ")") = .ok (.number "1") ∧
    evalStr ("(" ++ "1" ++ ")") [] = evalStr "1" [] :=
  ⟨(paren_wrap (s := "1") (t := .number "1") (f := ⟨[], 1, some endInst⟩)
      rfl rfl).1,
   (paren_wrap (s := "1") (t := .number "1") (f := ⟨[], 1, some endInst⟩)
      rfl rfl).2 []⟩


/-- C1, counterexample: the claim predicts that `parse("-a^b")` evaluates to
`-(a^b)`; with `a = 2`, `b = 2` the code yields `(-2)^2 = 4`, not
`-(2^2) = -4`. -/
theorem unary_minus_pow_cex :
    evalStr "-a^b" [("a", 2), ("b", 2)] = .ok 4 ∧
    evalStr "-a^b" [("a", 2), ("b", 2)] ≠ .ok (-4) := by
  constructor
  · rfl
  · decide

/-- C1, amended: the unary-minus prefix action parses its operand at the
fixed precedence 80, which is higher than every binary operator's binding
power; as a result the prefix minus captures only the atom and `-a^b`
parses as `(-a)^b` — `^` takes the negation as its left operand — so
evaluation yields `(-a) ** b`, not the negation of `a ** b`. -/
theorem unary_minus_pow_binding :
    parse "-a^b" = .ok (.binop "^" (.neg (.ref "a")) (.ref "b")) ∧
    (∀ a b : ℚ, evalStr "-a^b" [("a", a), ("b", b)] = liftEval (pypow (-a) b)) ∧
    (∀ e ∈ exprTable,
      (e.2.kind = .infixSym true ∨ e.2.kind = .infixSym false ∨
        e.2.kind = .minusSym) → e.2.lbp < 80) := by
  refine ⟨rfl, fun a b => rfl, ?_⟩
  decide

/-- C1, witness for the amended theorem's quantified parts. -/
theorem unary_minus_pow_binding_witness :
    evalStr "-a^b" [("a", 3), ("b", 5)] = liftEval (pypow (-3) 5) ∧
    (("^", (⟨.infixSym true, 70, "^"⟩ : SymDef)) ∈ exprTable ∧ (70 : Nat) < 80) :=
  ⟨unary_minus_pow_binding.2.1 3 5,
   by decide,
   unary_minus_pow_binding.2.2 ("^", ⟨.infixSym true, 70, "^"⟩) (by decide)
     (Or.inl rfl)⟩

/-- C2: the number pattern is written `(:?\d*\.)?\d+` — a literal optional
colon, not a non-capturing group — so the lexer accepts `":.5"` as a single
number token whose text `float()` rejects: evaluating the resulting
`Number` node fails with the malformed-text error.  The
claimed-unreachable branch is reachable. -/
theorem lexer_colon_number_reaches_invalid :
    lexAll ":.5" = .ok [⟨"<number>", ":.5", 0⟩] ∧
    pyfloat ":.5" = none ∧
    evalStr ":.5" [] = .error (.evalE (.invalidNumber ":.5")) := by
  refine ⟨by decide, rfl, rfl⟩

/-- C3: evaluating a `Call` node whose callee name is absent from
`OP_REGISTRY` fails with the `Invalid function` error (`unknownFunction`);
applying a table entry to an argument count violating its declared arity
fails with the `TypeError` (`arityMismatch`); in particular
`parse("sqrt(1, 2)")` evaluates to the arity error in every context. -/
theorem call_unknown_function_and_arity :
    (∀ (f : Node) (args : List Node) (doc : Doc),
      assocGet (nodeValue f) OP_REGISTRY = none →
      evalNode (.call f args) doc = .error (.unknownFunction (nodeValue f))) ∧
    (∀ (f : Node) (args : List Node) (doc : Doc) (entry : OpEntry)
      (vs : List ℚ),
      assocGet (nodeValue f) OP_REGISTRY = some entry →
      evalArgs args doc = .ok vs →
      entry.arityOk vs.length = false →
      evalNode (.call f args) doc = .error (.arityMismatch (nodeValue f))) ∧
    (∀ doc : Doc, evalStr "sqrt(1, 2)" doc = .error (.evalE (.arityMismatch "sqrt"))) := by
  refine ⟨?_, ?_, fun doc => rfl⟩
  · intro f args doc h
    simp [evalNode, h]
  · intro f args doc entry vs h1 h2 h3
    simp only [evalNode, h1, h2]
    exact OpEntry.callWith_of_arity_false _ _ _ h3

/-- C3, witness: an unregistered name `foo` fails with `unknownFunction`,
and `sqrt` applied to two evaluated arguments fails with `arityMismatch`. -/
theorem call_unknown_function_and_arity_witness :
    evalNode (.call (.ref "foo") []) [] = .error (.unknownFunction "foo") ∧
    evalNode (.call (.ref "sqrt") [.number "1", .number "2"]) [] =
      .error (.arityMismatch "sqrt") ∧
    evalStr "sqrt(1, 2)" [] = .error (.evalE (.arityMismatch "sqrt")) :=
  ⟨call_unknown_function_and_arity.1 (.ref "foo") [] [] rfl,
   call_unknown_function_and_arity.2.1 (.ref "sqrt")
     [.number "1", .number "2"] [] (.unF pysqrt) [1, 2]
     rfl (by decide) (by decide),
   call_unknown_function_and_arity.2.2 []⟩

/-- C4: exponentiation is right-associative — `parse("2 ^ 3 ^ 2")`
evaluates to 512, not 64, in every context; mechanically, a
right-associative infix action parses its right operand at floor
`lbp - 1` and a left-associative one at `lbp`. -/
theorem pow_right_assoc :
    (∀ doc : Doc,
      evalStr "2 ^ 3 ^ 2" doc = .ok 512 ∧ evalStr "2 ^ 3 ^ 2" doc ≠ .ok 64) ∧
    (∀ (fuel : Nat) (t : SymInst) (left : Node) (st : PState),
      t.kind = .infixSym true →
      ledRun (fuel + 1) t left st = (do
        let (right, st') ← expression fuel (t.lbp - 1) st
        pure (.binop t.value left right, st'))) ∧
    (∀ (fuel : Nat) (t : SymInst) (left : Node) (st : PState),
      t.kind = .infixSym false →
      ledRun (fuel + 1) t left st = (do
        let (right, st') ← expression fuel t.lbp st
        pure (.binop t.value left right, st'))) := by
  refine ⟨?_, ?_, ?_⟩
  · intro doc
    refine ⟨rfl, ?_⟩
    rw [show evalStr "2 ^ 3 ^ 2" doc = .ok 512 from rfl]
    decide
  · intro fuel t left st h
    cases t with
    | mk k l v s => cases h; rfl
  · intro fuel t left st h
    cases t with
    | mk k l v s => cases h; rfl

/-- C4, witness: the right-associative `^` symbol at binding power 70
parses its right operand at floor 69, the left-associative `+` at 50. -/
theorem pow_right_assoc_witness :
    evalStr "2 ^ 3 ^ 2" [] = .ok 512 ∧
    ledRun 5 ⟨.infixSym true, 70, "^", "^"⟩ (.number "2") ⟨[], 0, none⟩ = (do
      let (right, st') ← expression 4 69 (⟨[], 0, none⟩ : PState)
      pure (.binop "^" (.number "2") right, st')) ∧
    ledRun 5 ⟨.infixSym false, 50, "+", "+"⟩ (.number "2") ⟨[], 0, none⟩ = (do
      let (right, st') ← expression 4 50 (⟨[], 0, none⟩ : PState)
      pure (.binop "+" (.number "2") right, st')) :=
  ⟨(pow_right_assoc.1 []).1,
   pow_right_assoc.2.1 4 ⟨.infixSym true, 70, "^", "^"⟩ (.number "2")
     ⟨[], 0, none⟩ rfl,
   pow_right_assoc.2.2 4 ⟨.infixSym false, 50, "+", "+"⟩ (.number "2")
     ⟨[], 0, none⟩ rfl⟩

/-- C5: multiplication binds tighter than addition — `parse("1 + 2 * 3")`
evaluates to 7, not 9, in every context. -/
theorem mul_binds_tighter_than_add :
    ∀ doc : Doc,
      evalStr "1 + 2 * 3" doc = .ok 7 ∧ evalStr "1 + 2 * 3" doc ≠ .ok 9 := by
  intro doc
  refine ⟨rfl, ?_⟩
  rw [show evalStr "1 + 2 * 3" doc = .ok 7 from rfl]
  decide

/-- C6: `parse` resets the engine's stream and current token on every exit
path (the `finally` block), so a subsequent `parse` on the same engine
behaves exactly as on a freshly constructed one. -/
theorem engine_parse_resets_state :
    ∀ (e : Engine) (s : String),
      (Engine.parse e s).2 = initEngine ∧
      Engine.parse e s = Engine.parse initEngine s :=
  fun _ _ => ⟨rfl, rfl⟩

/-- C7: `advance` resolves a token's symbol by exact text first, falls back
to the token type tag only when the text has no entry (a literal key
shadows a type-based default), and fails with the `Undefined token` error
when neither key is registered. -/
theorem advance_lookup_order :
    (∀ (tbl : List (String × SymDef)) (tk : Token) (d : SymDef),
      assocGet tk.value tbl = some d → resolveSym tbl tk = some d) ∧
    (∀ (tbl : List (String × SymDef)) (tk : Token) (d : SymDef),
      assocGet tk.value tbl = none → assocGet tk.token_type tbl = some d →
      resolveSym tbl tk = some d) ∧
    (∀ (tbl : List (String × SymDef)) (tk : Token),
      assocGet tk.value tbl = none → assocGet tk.token_type tbl = none →
      resolveSym tbl tk = none) ∧
    (∀ (tbl : List (String × SymDef)) (st : PState) (tk : Token)
      (rest : List Char) (p : Nat),
      lexNext st.src st.pos = .ok (some (tk, rest, p)) →
      resolveSym tbl tk = none →
      advance tbl none st = .error (.undefinedToken tk)) := by
  refine ⟨?_, ?_, ?_, ?_⟩
  · intro tbl tk d h
    simp [resolveSym, h]
  · intro tbl tk d h1 h2
    simp [resolveSym, h1, h2]
  · intro tbl tk h1 h2
    simp [resolveSym, h1, h2]
  · intro tbl st tk rest p hlex hres
    simp [advance, advanceNext, hlex, hres]

/-- C7, witness: with both `"x"` and `"<name>"` registered, the token
`x` resolves to the text-keyed entry, a token `y` of the same type falls
back to the type entry, and with an empty table `advance` fails with
`Undefined token`. -/
theorem advance_lookup_order_witness :
    resolveSym [("x", ⟨.nameSym, 0, "x"⟩), ("<name>", ⟨.numberSym, 1, "<name>"⟩)]
      ⟨"<name>", "x", 0⟩ = some ⟨.nameSym, 0, "x"⟩ ∧
    resolveSym [("x", ⟨.nameSym, 0, "x"⟩), ("<name>", ⟨.numberSym, 1, "<name>"⟩)]
      ⟨"<name>", "y", 0⟩ = some ⟨.numberSym, 1, "<name>"⟩ ∧
    resolveSym [("x", ⟨.nameSym, 0, "x"⟩)] ⟨"<punct>", "(", 0⟩ = none ∧
    advance [] none ⟨['('], 0, none⟩ = .error (.undefinedToken ⟨"<punct>", "(", 0⟩) :=
  ⟨advance_lookup_order.1 _ ⟨"<name>", "x", 0⟩ _ (by decide),
   advance_lookup_order.2.1 _ ⟨"<name>", "y", 0⟩ _ (by decide) (by decide),
   advance_lookup_order.2.2.1 _ ⟨"<punct>", "(", 0⟩ (by decide) (by decide),
   advance_lookup_order.2.2.2 [] ⟨['('], 0, none⟩ ⟨"<punct>", "(", 0⟩ [] 1
     (by decide) (by decide)⟩

/-- C8: the binding-power loop runs only while the floor is strictly below
the current token's binding power, so a symbol with binding power 0 —
`"<end>"`, `")"` and `","` are registered with 0 — never has its infix
action invoked and always terminates the enclosing expression, returning
the accumulated left operand and the state unchanged. -/
theorem zero_binding_power_terminates :
    (∀ (fuel rbp : Nat) (left : Node) (st : PState) (t : SymInst),
      st.tok = some t → t.lbp = 0 →
      exprLoop (fuel + 1) rbp left st = .ok (left, st)) ∧
    assocGet "<end>" exprTable = some ⟨.endSym, 0, "<end>"⟩ ∧
    assocGet ")" exprTable = some ⟨.plainSym, 0, ")"⟩ ∧
    assocGet "," exprTable = some ⟨.plainSym, 0, ","⟩ := by
  refine ⟨?_, by decide, by decide, by decide⟩
  intro fuel rbp left st t hst hlbp
  simp [exprLoop, hst, hlbp]

/-- C8, witness: at the end-of-input symbol the loop exits immediately. -/
theorem zero_binding_power_terminates_witness :
    exprLoop 1 0 (.number "1") ⟨[], 0, some endInst⟩ =
      .ok (.number "1", ⟨[], 0, some endInst⟩) :=
  zero_binding_power_terminates.1 0 0 (.number "1") ⟨[], 0, some endInst⟩
    endInst rfl rfl

end ExprParser
